import Mathlib

/-!
Verification of the `Learning-DSA-with-Python` repository.

The file embeds, as Lean definitions, the Python code of
`src/data_structures/arrays.py` (the `DynamicArray` class and the
`two_sum` function) and `src/algorithms/sorting.py` (`bubble_sort`,
`insertion_sort`, `merge_sort` with its helper `merge`, and
`quick_sort`), and proves the specified properties about them.

Modelling conventions:
* Python ints are `Int`; indices that the code keeps as non-negative
  counters (`self._size`, loop counters) are `Nat`.
* The backing buffer `self._array` is a `List (Option Int)`; a slot
  holding Python `None` is `none`.
* A method that can raise returns the resulting object state together
  with an `Except String` value; the state component is the state of
  the object at the moment the exception propagates (Python mutates
  in place, so a partially-performed operation leaves its partial
  mutations behind).  The strings are the exception messages: the
  explicit `raise` messages of the source, and for exceptions raised
  by Python list indexing itself the interpreter messages
  `"list index out of range"` (read) and
  `"list assignment index out of range"` (write).
* Python `//` on ints is floor division; for the divisors used by the
  code (2 and 4) this agrees with `Int` division `/` in Lean
  (Euclidean division, which rounds down for positive divisors).
-/

namespace DSA

/-! ### two_sum, from src/data_structures/arrays.py

The Python loop is

```
seen = \x7b\x7d
for i, num in enumerate(arr):
    complement = target - num
    if complement in seen:
        return [seen[complement], i]
    seen[num] = i
return None
```

The dict `seen` is modelled as an association list whose newest
binding sits at the front, so `List.lookup` returns the most recent
binding for a key, exactly like a Python dict after overwriting
assignments `seen[num] = i`. -/

def twoSumLoop (target : Int) : List Int → Nat → List (Int × Nat) → Option (Nat × Nat)
  | [], _, _ => none
  | num :: rest, i, seen =>
    match seen.lookup (target - num) with
    | some j => some (j, i)
    | none => twoSumLoop target rest (i + 1) ((num, i) :: seen)

def two_sum (arr : List Int) (target : Int) : Option (Nat × Nat) :=
  twoSumLoop target arr 0 []

/-! ### DynamicArray, from src/data_structures/arrays.py -/

structure DynamicArray where
  capacity : Int
  size : Nat
  array : List (Option Int)
deriving DecidableEq

/-- `__init__(self, capacity=10)`: `self._capacity = capacity`,
`self._size = 0`, `self._array = [None] * capacity` (a negative
multiplier yields the empty list, hence `Int.toNat`). -/
def DynamicArray.init (capacity : Int := 10) : DynamicArray :=
  { capacity := capacity, size := 0, array := List.replicate capacity.toNat none }

/-- `__len__`: returns `self._size`. -/
def DynamicArray.length (a : DynamicArray) : Nat := a.size

/-- `__getitem__(self, index)`: bounds check `0 <= index < self._size`,
then return `self._array[index]`.  No mutation is possible. -/
def DynamicArray.getItem (a : DynamicArray) (index : Int) : Except String (Option Int) :=
  if 0 ≤ index ∧ index < (a.size : Int) then
    match a.array.get? index.toNat with
    | some v => .ok v
    | none => .error "list index out of range"
  else .error "Index out of bounds"

/-- `__setitem__(self, index, value)`: bounds check, then
`self._array[index] = value`. -/
def DynamicArray.setItem (a : DynamicArray) (index : Int) (value : Int) :
    DynamicArray × Except String Unit :=
  if 0 ≤ index ∧ index < (a.size : Int) then
    if index.toNat < a.array.length then
      ({ a with array := a.array.set index.toNat (some value) }, .ok ())
    else (a, .error "list assignment index out of range")
  else (a, .error "Index out of bounds")

/-- `_resize(self, new_capacity)`: allocate `[None] * new_capacity`,
copy the first `self._size` elements across, install the new buffer
and capacity.  The copy loop raises IndexError when `self._size`
exceeds either the old buffer length (read) or the new capacity
(write); the new buffer is then discarded, so the object is
unchanged. -/
def DynamicArray.resize (a : DynamicArray) (newCapacity : Int) :
    DynamicArray × Except String Unit :=
  if a.size ≤ a.array.length ∧ a.size ≤ newCapacity.toNat then
    ({ a with
        capacity := newCapacity,
        array := a.array.take a.size ++ List.replicate (newCapacity.toNat - a.size) none },
     .ok ())
  else (a, .error "list index out of range")

/-- `append(self, value)`: double the capacity when full, then
`self._array[self._size] = value; self._size += 1`. -/
def DynamicArray.append (a : DynamicArray) (value : Int) :
    DynamicArray × Except String Unit :=
  match (if (a.size : Int) = a.capacity then a.resize (2 * a.capacity) else (a, .ok ())) with
  | (a1, .ok _) =>
    if a1.size < a1.array.length then
      ({ a1 with array := a1.array.set a1.size (some value), size := a1.size + 1 }, .ok ())
    else (a1, .error "list assignment index out of range")
  | (a1, .error e) => (a1, .error e)

/-- The loop `for i in range(self._size, index, -1): self._array[i] = self._array[i-1]`
of `insert`, shifting one slot to the right, highest index first.
Each iteration reads slot `k - 1` and writes slot `k`; the Boolean
records whether the loop ran to completion without an IndexError. -/
def shiftRight (arr : List (Option Int)) (k stop : Nat) : List (Option Int) × Bool :=
  if stop < k then
    match arr.get? (k - 1) with
    | some x =>
      if k < arr.length then shiftRight (arr.set k x) (k - 1) stop else (arr, false)
    | none => (arr, false)
  else (arr, true)
termination_by k

/-- `insert(self, index, value)`: bounds check `0 <= index <= self._size`
first, then double the capacity if full, shift right, place the value,
increment the size. -/
def DynamicArray.insert (a : DynamicArray) (index : Int) (value : Int) :
    DynamicArray × Except String Unit :=
  if 0 ≤ index ∧ index ≤ (a.size : Int) then
    match (if (a.size : Int) = a.capacity then a.resize (2 * a.capacity) else (a, .ok ())) with
    | (a1, .ok _) =>
      match shiftRight a1.array a1.size index.toNat with
      | (arr1, true) =>
        if index.toNat < arr1.length then
          ({ a1 with array := arr1.set index.toNat (some value), size := a1.size + 1 }, .ok ())
        else ({ a1 with array := arr1 }, .error "list assignment index out of range")
      | (arr1, false) => ({ a1 with array := arr1 }, .error "list index out of range")
    | (a1, .error e) => (a1, .error e)
  else (a, .error "Index out of bounds")

/-- The loop `for i in range(index, self._size - 1): self._array[i] = self._array[i+1]`
of `pop`, shifting one slot to the left.  Each iteration reads slot
`k + 1` and writes slot `k`; a successful read at `k + 1` guarantees
the write at `k` is in range. -/
def shiftLeft (arr : List (Option Int)) (k stop : Nat) : List (Option Int) × Bool :=
  if k < stop then
    match arr.get? (k + 1) with
    | some x => shiftLeft (arr.set k x) (k + 1) stop
    | none => (arr, false)
  else (arr, true)
termination_by stop - k

/-- `pop(self, index=-1)`: empty check, negative-index resolution,
bounds check, read the value, shift left, clear the vacated slot,
decrement the size, then halve the capacity when the new size equals
`self._capacity // 4` and is positive.  Returns the removed value. -/
def DynamicArray.pop (a : DynamicArray) (index : Int := -1) :
    DynamicArray × Except String (Option Int) :=
  if a.size = 0 then (a, .error "Pop from empty array")
  else
    let idx : Int := if index < 0 then (a.size : Int) + index else index
    if 0 ≤ idx ∧ idx < (a.size : Int) then
      match a.array.get? idx.toNat with
      | none => (a, .error "list index out of range")
      | some value =>
        match shiftLeft a.array idx.toNat (a.size - 1) with
        | (arr1, true) =>
          if a.size - 1 < arr1.length then
            let a1 : DynamicArray :=
              { a with array := arr1.set (a.size - 1) none, size := a.size - 1 }
            match (if 0 < a1.size ∧ (a1.size : Int) = a.capacity / 4
                   then a1.resize (a.capacity / 2) else (a1, .ok ())) with
            | (a2, .ok _) => (a2, .ok value)
            | (a2, .error e) => (a2, .error e)
          else ({ a with array := arr1 }, .error "list assignment index out of range")
        | (arr1, false) => ({ a with array := arr1 }, .error "list index out of range")
    else (a, .error "Index out of bounds")

/-- The scan of `remove`: `for i in range(self._size): if self._array[i] == value: ...`.
Comparing a `None` slot with an int value is `False` in Python, which
matches comparing the slot against `some value`. -/
def DynamicArray.removeLoop (a : DynamicArray) (value : Int) (i : Nat) :
    DynamicArray × Except String Unit :=
  if i < a.size then
    match a.array.get? i with
    | none => (a, .error "list index out of range")
    | some x =>
      if x = some value then
        match a.pop (i : Int) with
        | (a1, .ok _) => (a1, .ok ())
        | (a1, .error e) => (a1, .error e)
      else a.removeLoop value (i + 1)
  else (a, .error (toString value ++ " not found in array"))
termination_by a.size - i

/-- `remove(self, value)`: scan for the first occurrence, delegate to
`pop` at that index, or raise `ValueError(f"\x7bvalue\x7d not found in array")`. -/
def DynamicArray.remove (a : DynamicArray) (value : Int) :
    DynamicArray × Except String Unit :=
  a.removeLoop value 0

/-- Run a whole sequence of `append` calls, threading the state. -/
def DynamicArray.appendAll (a : DynamicArray) (vs : List Int) : DynamicArray :=
  vs.foldl (fun s v => (s.append v).1) a

/-- The structural well-formedness the spec's invariant asserts:
`0 <= size <= capacity` (the lower bound is inherent in `Nat`),
together with the buffer having exactly `capacity` slots. -/
def DynamicArray.WF (a : DynamicArray) : Prop :=
  (a.size : Int) ≤ a.capacity ∧ a.array.length = a.capacity.toNat

instance (a : DynamicArray) : Decidable a.WF := by
  unfold DynamicArray.WF; infer_instance

/-- The invariant maintained by every reachable state when the array
is constructed with a capacity of at least 1, as the spec requires. -/
def Inv (a : DynamicArray) : Prop := a.WF ∧ 1 ≤ a.capacity

instance (a : DynamicArray) : Decidable (Inv a) := by
  unfold Inv; infer_instance

/-! #### Lemmas about the shifting loops -/

theorem shiftLeft_length (arr : List (Option Int)) (k stop : Nat) :
    (shiftLeft arr k stop).1.length = arr.length := by
  induction arr, k, stop using shiftLeft.induct with
  | case1 arr k stop hk v hv ih =>
    rw [shiftLeft.eq_def, if_pos hk, hv]
    simpa using ih
  | case2 arr k stop hk hv => rw [shiftLeft.eq_def, if_pos hk, hv]
  | case3 arr k stop hk => rw [shiftLeft.eq_def, if_neg hk]

theorem shiftLeft_ok (arr : List (Option Int)) (k stop : Nat) (h : stop < arr.length) :
    (shiftLeft arr k stop).2 = true := by
  induction arr, k, stop using shiftLeft.induct with
  | case1 arr k stop hk v hv ih =>
    rw [shiftLeft.eq_def, if_pos hk, hv]
    exact ih (by simpa using h)
  | case2 arr k stop hk hv =>
    exfalso
    have hk1 : k + 1 < arr.length := by omega
    rw [List.get?_eq_getElem?, List.getElem?_eq_getElem hk1] at hv
    cases hv
  | case3 arr k stop hk => rw [shiftLeft.eq_def, if_neg hk]

theorem shiftLeft_stop (arr : List (Option Int)) (k stop : Nat) (h : ¬ k < stop) :
    shiftLeft arr k stop = (arr, true) := by
  rw [shiftLeft.eq_def, if_neg h]

theorem shiftRight_length (arr : List (Option Int)) (k stop : Nat) :
    (shiftRight arr k stop).1.length = arr.length := by
  induction arr, k, stop using shiftRight.induct with
  | case1 arr k stop hk v hv hlt ih =>
    rw [shiftRight.eq_def, if_pos hk, hv]
    dsimp only
    rw [if_pos hlt]
    simpa using ih
  | case2 arr k stop hk v hv hlt =>
    rw [shiftRight.eq_def, if_pos hk, hv]
    dsimp only
    rw [if_neg hlt]
  | case3 arr k stop hk hv => rw [shiftRight.eq_def, if_pos hk, hv]
  | case4 arr k stop hk => rw [shiftRight.eq_def, if_neg hk]

theorem shiftRight_ok (arr : List (Option Int)) (k stop : Nat) (h : k < arr.length) :
    (shiftRight arr k stop).2 = true := by
  induction arr, k, stop using shiftRight.induct with
  | case1 arr k stop hk v hv hlt ih =>
    rw [shiftRight.eq_def, if_pos hk, hv]
    dsimp only
    rw [if_pos hlt]
    exact ih (by simpa using Nat.lt_of_le_of_lt (Nat.sub_le k 1) h)
  | case2 arr k stop hk v hv hlt => exact absurd h hlt
  | case3 arr k stop hk hv =>
    exfalso
    have hk1 : k - 1 < arr.length := by omega
    rw [List.get?_eq_getElem?, List.getElem?_eq_getElem hk1] at hv
    cases hv
  | case4 arr k stop hk => rw [shiftRight.eq_def, if_neg hk]

/-! #### Lemmas about `_resize` and the mutating operations, under `Inv` -/

theorem resize_spec (a : DynamicArray) (nc : Int) (h1 : a.size ≤ a.array.length)
    (h2 : a.size ≤ nc.toNat) :
    a.resize nc =
      ({ a with
          capacity := nc
          array := a.array.take a.size ++ List.replicate (nc.toNat - a.size) none },
       .ok ()) := by
  rw [DynamicArray.resize, if_pos ⟨h1, h2⟩]

theorem append_spec (a : DynamicArray) (v : Int) (h : Inv a) :
    (a.append v).2 = .ok () ∧ Inv (a.append v).1 ∧
    (a.append v).1.size = a.size + 1 ∧
    (a.append v).1.capacity =
      (if (a.size : Int) = a.capacity then 2 * a.capacity else a.capacity) ∧
    (a.append v).1.array.get? a.size = some (some v) := by
  obtain ⟨⟨hsc, hlen⟩, hcap⟩ := h
  by_cases hfull : (a.size : Int) = a.capacity
  · have h1 : a.size ≤ a.array.length := by omega
    have h2 : a.size ≤ (2 * a.capacity).toNat := by omega
    rw [DynamicArray.append, if_pos hfull, resize_spec a _ h1 h2]
    dsimp only
    have hlen1 :
        (a.array.take a.size ++
          List.replicate ((2 * a.capacity).toNat - a.size) none).length =
        (2 * a.capacity).toNat := by
      simp only [List.length_append, List.length_take, List.length_replicate]
      omega
    have hwr : a.size <
        (a.array.take a.size ++
          List.replicate ((2 * a.capacity).toNat - a.size) none).length := by
      rw [hlen1]; omega
    rw [if_pos hwr]
    refine ⟨rfl, ⟨⟨by dsimp only; omega, ?_⟩, by dsimp only; omega⟩, rfl,
      by dsimp only; rw [if_pos hfull], ?_⟩
    · show ((a.array.take a.size ++
          List.replicate ((2 * a.capacity).toNat - a.size) none).set
            a.size (some v)).length = (2 * a.capacity).toNat
      rw [List.length_set, hlen1]
    · show ((a.array.take a.size ++
          List.replicate ((2 * a.capacity).toNat - a.size) none).set
            a.size (some v)).get? a.size = some (some v)
      rw [List.get?_eq_getElem?, List.getElem?_set_self']
      simp [List.getElem?_eq_getElem hwr]
  · have hwr : a.size < a.array.length := by omega
    rw [DynamicArray.append, if_neg hfull]
    dsimp only
    rw [if_pos hwr]
    refine ⟨rfl, ⟨⟨by dsimp only; omega, ?_⟩, by dsimp only; omega⟩, rfl,
      by dsimp only; rw [if_neg hfull], ?_⟩
    · show (a.array.set a.size (some v)).length = a.capacity.toNat
      rw [List.length_set, hlen]
    · show (a.array.set a.size (some v)).get? a.size = some (some v)
      rw [List.get?_eq_getElem?, List.getElem?_set_self']
      simp [List.getElem?_eq_getElem hwr]

theorem insert_spec (a : DynamicArray) (index v : Int) (h : Inv a)
    (hidx : 0 ≤ index ∧ index ≤ (a.size : Int)) :
    (a.insert index v).2 = .ok () ∧ Inv (a.insert index v).1 ∧
    (a.insert index v).1.size = a.size + 1 ∧
    (a.insert index v).1.capacity =
      (if (a.size : Int) = a.capacity then 2 * a.capacity else a.capacity) := by
  obtain ⟨⟨hsc, hlen⟩, hcap⟩ := h
  by_cases hfull : (a.size : Int) = a.capacity
  · have h1 : a.size ≤ a.array.length := by omega
    have h2 : a.size ≤ (2 * a.capacity).toNat := by omega
    have hres := resize_spec a (2 * a.capacity) h1 h2
    rw [DynamicArray.insert, if_pos hidx, if_pos hfull, hres]
    dsimp only
    have hlen1 :
        (a.array.take a.size ++
          List.replicate ((2 * a.capacity).toNat - a.size) none).length =
        (2 * a.capacity).toNat := by
      simp only [List.length_append, List.length_take, List.length_replicate]
      omega
    rcases hsr : shiftRight
        (a.array.take a.size ++
          List.replicate ((2 * a.capacity).toNat - a.size) none)
        a.size index.toNat with ⟨arr1, b⟩
    have hb : b = true := by
      have hok := shiftRight_ok
        (a.array.take a.size ++
          List.replicate ((2 * a.capacity).toNat - a.size) none)
        a.size index.toNat (by rw [hlen1]; omega)
      rw [hsr] at hok
      exact hok
    subst hb
    have hlarr1 : arr1.length = (2 * a.capacity).toNat := by
      have hl := shiftRight_length
        (a.array.take a.size ++
          List.replicate ((2 * a.capacity).toNat - a.size) none)
        a.size index.toNat
      rw [hsr] at hl
      rw [hl, hlen1]
    dsimp only
    rw [if_pos (by rw [hlarr1]; omega : index.toNat < arr1.length)]
    refine ⟨rfl, ⟨⟨by dsimp only; omega, ?_⟩, by dsimp only; omega⟩, rfl,
      by dsimp only; rw [if_pos hfull]⟩
    show (arr1.set index.toNat (some v)).length = (2 * a.capacity).toNat
    rw [List.length_set, hlarr1]
  · rw [DynamicArray.insert, if_pos hidx, if_neg hfull]
    dsimp only
    rcases hsr : shiftRight a.array a.size index.toNat with ⟨arr1, b⟩
    have hb : b = true := by
      have hok := shiftRight_ok a.array a.size index.toNat (by omega)
      rw [hsr] at hok
      exact hok
    subst hb
    have hlarr1 : arr1.length = a.capacity.toNat := by
      have hl := shiftRight_length a.array a.size index.toNat
      rw [hsr] at hl
      rw [hl, hlen]
    dsimp only
    rw [if_pos (by rw [hlarr1]; omega : index.toNat < arr1.length)]
    refine ⟨rfl, ⟨⟨by dsimp only; omega, ?_⟩, by dsimp only; omega⟩, rfl,
      by dsimp only; rw [if_neg hfull]⟩
    show (arr1.set index.toNat (some v)).length = a.capacity.toNat
    rw [List.length_set, hlarr1]

theorem insert_oob (a : DynamicArray) (index v : Int)
    (hidx : ¬ (0 ≤ index ∧ index ≤ (a.size : Int))) :
    a.insert index v = (a, .error "Index out of bounds") := by
  rw [DynamicArray.insert, if_neg hidx]

theorem pop_spec (a : DynamicArray) (index : Int) (h : Inv a) (hsz : ¬ a.size = 0)
    (hidx : 0 ≤ (if index < 0 then (a.size : Int) + index else index) ∧
            (if index < 0 then (a.size : Int) + index else index) < (a.size : Int)) :
    (∃ val, a.array.get? (if index < 0 then (a.size : Int) + index else index).toNat =
        some val ∧ (a.pop index).2 = .ok val) ∧
    Inv (a.pop index).1 ∧ (a.pop index).1.size = a.size - 1 ∧
    (a.pop index).1.capacity =
      (if 0 < a.size - 1 ∧ ((a.size - 1 : Nat) : Int) = a.capacity / 4
       then a.capacity / 2 else a.capacity) := by
  obtain ⟨⟨hsc, hlen⟩, hcap⟩ := h
  have hidxlt : (if index < 0 then (a.size : Int) + index else index).toNat <
      a.array.length := by
    rw [hlen]; omega
  obtain ⟨val, hval⟩ : ∃ val,
      a.array.get? (if index < 0 then (a.size : Int) + index else index).toNat =
        some val := by
    rw [List.get?_eq_getElem?]
    exact ⟨_, List.getElem?_eq_getElem hidxlt⟩
  rw [DynamicArray.pop, if_neg hsz]
  dsimp only
  rw [if_pos hidx, hval]
  dsimp only
  rcases hsl : shiftLeft a.array
      (if index < 0 then (a.size : Int) + index else index).toNat (a.size - 1)
    with ⟨arr1, b⟩
  have hb : b = true := by
    have hok := shiftLeft_ok a.array
      (if index < 0 then (a.size : Int) + index else index).toNat (a.size - 1)
      (by omega)
    rw [hsl] at hok
    exact hok
  subst hb
  have hlarr1 : arr1.length = a.capacity.toNat := by
    have hl := shiftLeft_length a.array
      (if index < 0 then (a.size : Int) + index else index).toNat (a.size - 1)
    rw [hsl] at hl
    rw [hl, hlen]
  dsimp only
  rw [if_pos (by rw [hlarr1]; omega : a.size - 1 < arr1.length)]
  by_cases hshr : 0 < a.size - 1 ∧ ((a.size - 1 : Nat) : Int) = a.capacity / 4
  · have h1 : a.size - 1 ≤ (arr1.set (a.size - 1) none).length := by
      rw [List.length_set, hlarr1]; omega
    have h2 : a.size - 1 ≤ (a.capacity / 2).toNat := by omega
    rw [if_pos hshr,
      resize_spec { a with array := arr1.set (a.size - 1) none, size := a.size - 1 }
        (a.capacity / 2) h1 h2]
    dsimp only
    refine ⟨⟨val, rfl, rfl⟩, ⟨⟨by dsimp only; omega, ?_⟩, by dsimp only; omega⟩,
      rfl, by rw [if_pos hshr]⟩
    show (((arr1.set (a.size - 1) none).take (a.size - 1)) ++
        List.replicate ((a.capacity / 2).toNat - (a.size - 1)) none).length =
      (a.capacity / 2).toNat
    simp only [List.length_append, List.length_take, List.length_set, hlarr1,
      List.length_replicate]
    omega
  · rw [if_neg hshr]
    dsimp only
    refine ⟨⟨val, rfl, rfl⟩, ⟨⟨by dsimp only; omega, ?_⟩, by dsimp only; omega⟩,
      rfl, by rw [if_neg hshr]⟩
    show (arr1.set (a.size - 1) none).length = a.capacity.toNat
    rw [List.length_set, hlarr1]

theorem pop_empty (a : DynamicArray) (index : Int) (h : a.size = 0) :
    a.pop index = (a, .error "Pop from empty array") := by
  rw [DynamicArray.pop, if_pos h]

theorem pop_oob (a : DynamicArray) (index : Int) (hsz : ¬ a.size = 0)
    (hidx : ¬ (0 ≤ (if index < 0 then (a.size : Int) + index else index) ∧
               (if index < 0 then (a.size : Int) + index else index) < (a.size : Int))) :
    a.pop index = (a, .error "Index out of bounds") := by
  rw [DynamicArray.pop, if_neg hsz]
  dsimp only
  rw [if_neg hidx]

theorem getItem_oob (a : DynamicArray) (index : Int)
    (hidx : ¬ (0 ≤ index ∧ index < (a.size : Int))) :
    a.getItem index = .error "Index out of bounds" := by
  rw [DynamicArray.getItem, if_neg hidx]

theorem getItem_ok (a : DynamicArray) (index : Int) (hlen : a.size ≤ a.array.length)
    (hidx : 0 ≤ index ∧ index < (a.size : Int)) :
    ∃ val, a.array.get? index.toNat = some val ∧ a.getItem index = .ok val := by
  obtain ⟨val, hval⟩ : ∃ val, a.array.get? index.toNat = some val := by
    rw [List.get?_eq_getElem?]
    exact ⟨_, List.getElem?_eq_getElem (by omega)⟩
  refine ⟨val, hval, ?_⟩
  rw [DynamicArray.getItem, if_pos hidx, hval]

theorem setItem_oob (a : DynamicArray) (index v : Int)
    (hidx : ¬ (0 ≤ index ∧ index < (a.size : Int))) :
    a.setItem index v = (a, .error "Index out of bounds") := by
  rw [DynamicArray.setItem, if_neg hidx]

theorem setItem_spec (a : DynamicArray) (index v : Int) (h : Inv a)
    (hidx : 0 ≤ index ∧ index < (a.size : Int)) :
    (a.setItem index v).2 = .ok () ∧ Inv (a.setItem index v).1 ∧
    (a.setItem index v).1.size = a.size ∧
    (a.setItem index v).1.capacity = a.capacity := by
  obtain ⟨⟨hsc, hlen⟩, hcap⟩ := h
  rw [DynamicArray.setItem, if_pos hidx,
    if_pos (by omega : index.toNat < a.array.length)]
  refine ⟨rfl, ⟨⟨by dsimp only; omega, ?_⟩, by dsimp only; omega⟩, rfl, rfl⟩
  show (a.array.set index.toNat (some v)).length = a.capacity.toNat
  rw [List.length_set, hlen]

theorem removeLoop_notfound (a : DynamicArray) (v : Int)
    (hlen : a.size ≤ a.array.length) (i : Nat)
    (hnone : ∀ k, i ≤ k → k < a.size → ¬ a.array.get? k = some (some v)) :
    a.removeLoop v i = (a, .error (toString v ++ " not found in array")) := by
  induction i using DynamicArray.removeLoop.induct a v with
  | case1 x hx hget =>
    exfalso
    rw [List.get?_eq_getElem?, List.getElem?_eq_getElem (by omega)] at hget
    cases hget
  | case2 x hx a1 r hpop hget => exact absurd hget (hnone x le_rfl hx)
  | case3 x hx a1 e hpop hget => exact absurd hget (hnone x le_rfl hx)
  | case4 x hx y hget hne ih =>
    rw [DynamicArray.removeLoop.eq_def, if_pos hx, hget]
    dsimp only
    rw [if_neg hne]
    exact ih fun k hk1 hk2 => hnone k (by omega) hk2
  | case5 x hx => rw [DynamicArray.removeLoop.eq_def, if_neg hx]

theorem removeLoop_spec (a : DynamicArray) (v : Int) (h : Inv a) (i : Nat) :
    Inv (a.removeLoop v i).1 ∧
    ((a.removeLoop v i).2 = .ok () ∨
     (a.removeLoop v i).2 = .error (toString v ++ " not found in array")) := by
  induction i using DynamicArray.removeLoop.induct a v with
  | case1 x hx hget =>
    exfalso
    obtain ⟨⟨hsc, hlen⟩, hcap⟩ := h
    rw [List.get?_eq_getElem?, List.getElem?_eq_getElem (by omega)] at hget
    cases hget
  | case2 x hx a1 r hpop hget =>
    rw [DynamicArray.removeLoop.eq_def, if_pos hx, hget]
    dsimp only
    rw [if_pos rfl, hpop]
    have hspec := pop_spec a (x : Int) h (by omega)
      (by rw [if_neg (by omega : ¬ (x : Int) < 0)]
          exact ⟨Int.natCast_nonneg x, by exact_mod_cast hx⟩)
    rw [hpop] at hspec
    exact ⟨hspec.2.1, Or.inl rfl⟩
  | case3 x hx a1 e hpop hget =>
    exfalso
    have hspec := pop_spec a (x : Int) h (by omega)
      (by rw [if_neg (by omega : ¬ (x : Int) < 0)]
          exact ⟨Int.natCast_nonneg x, by exact_mod_cast hx⟩)
    obtain ⟨⟨val, _, hok⟩, _⟩ := hspec
    rw [hpop] at hok
    cases hok
  | case4 x hx y hget hne ih =>
    rw [DynamicArray.removeLoop.eq_def, if_pos hx, hget]
    dsimp only
    rw [if_neg hne]
    exact ih
  | case5 x hx =>
    rw [DynamicArray.removeLoop.eq_def, if_neg hx]
    exact ⟨h, Or.inr rfl⟩

/-! #### Behaviour of `two_sum`

The loop invariant: `seen` holds exactly the values of `arr` at indices
below `i`, each mapped (by `lookup`, which finds the newest binding) to
the largest such index; and no index pair completed before `i` sums to
the target. -/

theorem twoSumLoop_spec (arr : List Int) (target : Int) :
    ∀ (rest : List Int) (i : Nat) (seen : List (Int × Nat)),
      arr.drop i = rest →
      (∀ c j, seen.lookup c = some j → j < i ∧ arr.get? j = some c ∧
        ∀ k, j < k → k < i → ¬ arr.get? k = some c) →
      (∀ k, k < i → ∀ x, arr.get? k = some x → (seen.lookup x).isSome) →
      (∀ q, q < i → ∀ p, p < q → ∀ x y, arr.get? p = some x → arr.get? q = some y →
        x + y ≠ target) →
      (∀ i' j', twoSumLoop target rest i seen = some (i', j') →
        i' < j' ∧ j' < arr.length ∧
        (∃ x y, arr.get? i' = some x ∧ arr.get? j' = some y ∧ x + y = target) ∧
        (∀ q, q < j' → ∀ p, p < q → ∀ x y, arr.get? p = some x → arr.get? q = some y →
          x + y ≠ target) ∧
        (∀ k x, i' < k → k < j' → arr.get? i' = some x → ¬ arr.get? k = some x)) ∧
      (twoSumLoop target rest i seen = none →
        ∀ q, q < arr.length → ∀ p, p < q → ∀ x y, arr.get? p = some x →
          arr.get? q = some y → x + y ≠ target) := by
  intro rest
  induction rest with
  | nil =>
    intro i seen hdrop hseen1 _ hnopair
    constructor
    · intro i' j' h
      cases h
    · intro _ q hq p hpq x y hx hy
      have hlen : arr.length ≤ i := List.drop_eq_nil_iff.mp hdrop
      exact hnopair q (by omega) p hpq x y hx hy
  | cons num rest' ih =>
    intro i seen hdrop hseen1 hseen2 hnopair
    have hi : arr.get? i = some num := by
      rw [List.get?_eq_getElem?, ← List.head?_drop, hdrop]
      rfl
    have hilen : i < arr.length := by
      have hcopy := hi
      rw [List.get?_eq_some] at hcopy
      obtain ⟨h1, _⟩ := hcopy
      exact h1
    have hdrop' : arr.drop (i + 1) = rest' := by
      rw [← List.drop_drop 1 i, hdrop]
      rfl
    simp only [twoSumLoop]
    rcases hlook : seen.lookup (target - num) with _ | j
    · -- no complement among the previously seen values: bind and recurse
      dsimp only
      refine ih (i + 1) ((num, i) :: seen) hdrop' ?_ ?_ ?_
      · intro c j hcj
        by_cases hc : c = num
        · rw [List.lookup_cons] at hcj
          rw [show (c == num) = true from by simpa using hc] at hcj
          have hij : i = j := Option.some.inj hcj
          subst hij
          subst hc
          exact ⟨by omega, hi, fun k hk1 hk2 _ => by omega⟩
        · rw [List.lookup_cons] at hcj
          rw [show (c == num) = false from by simpa using hc] at hcj
          obtain ⟨hji, hgetj, hrec⟩ := hseen1 c j hcj
          refine ⟨by omega, hgetj, fun k hk1 hk2 => ?_⟩
          by_cases hki : k = i
          · subst hki
            rw [hi]
            intro hcontra
            exact hc (Option.some.inj hcontra).symm
          · exact hrec k hk1 (by omega)
      · intro k hk x hx
        by_cases hxnum : x = num
        · subst hxnum
          rw [List.lookup_cons]
          rw [show (x == x) = true from by simp]
          exact Option.isSome_some
        · have hki : k < i := by
            rcases Nat.lt_or_ge k i with h | h
            · exact h
            · exfalso
              have hki2 : k = i := by omega
              subst hki2
              rw [hi] at hx
              exact hxnum (Option.some.inj hx).symm
          rw [List.lookup_cons]
          rw [show (x == num) = false from by simpa using hxnum]
          exact hseen2 k hki x hx
      · intro q hq p hpq x y hx hy hsum
        by_cases hqi : q = i
        · subst hqi
          have hynum : y = num := by
            rw [hi] at hy
            exact (Option.some.inj hy).symm
          have hxc : x = target - num := by omega
          have hs := hseen2 p (by omega) x hx
          rw [hxc, hlook] at hs
          simp at hs
        · exact hnopair q (by omega) p hpq x y hx hy hsum
    · -- complement found: return the stored index and the current one
      dsimp only
      obtain ⟨hji, hgetj, hrec⟩ := hseen1 (target - num) j hlook
      constructor
      · intro i' j' heq
        obtain ⟨h1, h2⟩ := Prod.mk.inj (Option.some.inj heq)
        subst h1
        subst h2
        refine ⟨hji, hilen, ⟨target - num, num, hgetj, hi, by ring⟩,
          fun q hq p hpq x y hx hy => hnopair q (by omega) p hpq x y hx hy, ?_⟩
        intro k x hk1 hk2 hgi
        rw [hgetj] at hgi
        have hxeq : target - num = x := Option.some.inj hgi
        subst hxeq
        exact hrec k hk1 (by omega)
      · intro hcontra
        cases hcontra

/-- The full behaviour of `two_sum`: the instantiation of the loop
invariant at the initial state (index 0, empty dict). -/
theorem two_sum_spec (arr : List Int) (target : Int) :
    (∀ i j, two_sum arr target = some (i, j) →
      i < j ∧ j < arr.length ∧
      (∃ x y, arr.get? i = some x ∧ arr.get? j = some y ∧ x + y = target) ∧
      (∀ q, q < j → ∀ p, p < q → ∀ x y, arr.get? p = some x → arr.get? q = some y →
        x + y ≠ target) ∧
      (∀ k x, i < k → k < j → arr.get? i = some x → ¬ arr.get? k = some x)) ∧
    (two_sum arr target = none →
      ∀ q, q < arr.length → ∀ p, p < q → ∀ x y, arr.get? p = some x →
        arr.get? q = some y → x + y ≠ target) := by
  have h := twoSumLoop_spec arr target arr 0 [] (by simp)
    (fun c j hcj => by rw [List.lookup_nil] at hcj; cases hcj)
    (fun k hk => by omega)
    (fun q hq => by omega)
  exact h

/-! #### The capacity trajectory of repeated `append` -/

/-- The capacity after `k` appends into an initially empty array of
capacity `c`: before the `(k+1)`-st append the size is `k`, and the
capacity doubles exactly when `k` has reached it. -/
def growCaps (c : Int) : Nat → Int
  | 0 => c
  | k + 1 => if (k : Int) = growCaps c k then 2 * growCaps c k else growCaps c k

theorem appendAll_init_spec (c : Int) (hc : 1 ≤ c) (vs : List Int) :
    Inv ((DynamicArray.init c).appendAll vs) ∧
    ((DynamicArray.init c).appendAll vs).size = vs.length ∧
    ((DynamicArray.init c).appendAll vs).capacity = growCaps c vs.length := by
  induction vs using List.reverseRecOn with
  | nil =>
    have hnil : (DynamicArray.init c).appendAll [] = DynamicArray.init c := rfl
    rw [hnil]
    refine ⟨⟨⟨?_, ?_⟩, hc⟩, rfl, rfl⟩
    · show ((0 : Nat) : Int) ≤ c
      omega
    · show (List.replicate c.toNat (none : Option Int)).length = c.toNat
      simp
  | append_singleton vs v ih =>
    obtain ⟨hInv, hsize, hcap⟩ := ih
    have happ := append_spec ((DynamicArray.init c).appendAll vs) v hInv
    have hfold : (DynamicArray.init c).appendAll (vs ++ [v]) =
        (((DynamicArray.init c).appendAll vs).append v).1 := by
      simp [DynamicArray.appendAll, List.foldl_append]
    rw [hfold]
    refine ⟨happ.2.1, ?_, ?_⟩
    · rw [happ.2.2.1, hsize]
      simp
    · rw [happ.2.2.2.1, hsize, hcap]
      simp only [List.length_append, List.length_cons, List.length_nil]
      rfl

theorem growCaps_spec (c : Int) (hc : 1 ≤ c) (k : Nat) :
    ∃ m : Nat, growCaps c k = c * 2 ^ m ∧ (k : Int) ≤ c * 2 ^ m ∧
      ∀ m' : Nat, (k : Int) ≤ c * 2 ^ m' → c * 2 ^ m ≤ c * 2 ^ m' := by
  induction k with
  | zero =>
    refine ⟨0, by simp [growCaps], by simp; omega, fun m' _ => ?_⟩
    have h2 : (1 : Int) ≤ 2 ^ m' := one_le_pow₀ (by norm_num)
    have : c * 1 ≤ c * 2 ^ m' := by
      apply mul_le_mul_of_nonneg_left h2
      omega
    simpa using this
  | succ k ihk =>
    obtain ⟨m, hm, hk, hmin⟩ := ihk
    have hpos : (1 : Int) ≤ c * 2 ^ m := by
      have h2 : (1 : Int) ≤ 2 ^ m := one_le_pow₀ (by norm_num)
      nlinarith
    by_cases hfull : ((k : Nat) : Int) = growCaps c k
    · refine ⟨m + 1, ?_, ?_, ?_⟩
      · show (if (k : Int) = growCaps c k then 2 * growCaps c k else growCaps c k) =
          c * 2 ^ (m + 1)
        rw [if_pos hfull, hm]
        ring
      · have hkeq : (k : Int) = c * 2 ^ m := by rw [hfull, hm]
        have : ((k + 1 : Nat) : Int) = (k : Int) + 1 := by push_cast; ring
        rw [this, hkeq]
        have : c * 2 ^ (m + 1) = 2 * (c * 2 ^ m) := by ring
        rw [this]
        linarith
      · intro m' hm'
        rcases le_or_lt m' m with hle | hlt
        · exfalso
          have hpow : (2 : Int) ^ m' ≤ 2 ^ m := pow_le_pow_right₀ (by norm_num) hle
          have h1 : c * 2 ^ m' ≤ c * 2 ^ m :=
            mul_le_mul_of_nonneg_left hpow (by omega)
          have hkeq : (k : Int) = c * 2 ^ m := by rw [hfull, hm]
          have : ((k + 1 : Nat) : Int) = (k : Int) + 1 := by push_cast; ring
          rw [this] at hm'
          linarith
        · have hpow : (2 : Int) ^ (m + 1) ≤ 2 ^ m' := pow_le_pow_right₀ (by norm_num) hlt
          exact mul_le_mul_of_nonneg_left hpow (by omega)
    · refine ⟨m, ?_, ?_, ?_⟩
      · show (if (k : Int) = growCaps c k then 2 * growCaps c k else growCaps c k) =
          c * 2 ^ m
        rw [if_neg hfull, hm]
      · have hne : (k : Int) ≠ c * 2 ^ m := by rw [← hm]; exact hfull
        have : ((k + 1 : Nat) : Int) = (k : Int) + 1 := by push_cast; ring
        rw [this]
        rcases lt_or_eq_of_le hk with h | h
        · omega
        · exact absurd h hne
      · intro m' hm'
        apply hmin m'
        have : ((k + 1 : Nat) : Int) = (k : Int) + 1 := by push_cast; ring
        rw [this] at hm'
        omega

/-! ### Claim theorems for `two_sum` and `DynamicArray` -/

/-- C1, counterexample.  The claim says the map sends each
previously-seen value to its *first* index, so that on `[1, 1, 4]`
with target `5` the match at index 2 (complement `1`, first occurring
at index 0) would return the pair `(0, 2)`.  The code instead
overwrites `seen[num] = i` on every iteration, so the dict holds the
*most recent* index and the call returns `(1, 2)`. -/
theorem two_sum_first_index_refuted :
    two_sum [1, 1, 4] 5 = some (1, 2) ∧
    ((1 : Nat), (2 : Nat)) ≠ ((0 : Nat), (2 : Nat)) ∧
    ([1, 1, 4] : List Int).get? 0 = some 1 ∧
    ([1, 1, 4] : List Int).get? 1 = some 1 ∧
    ([1, 1, 4] : List Int).get? 2 = some 4 ∧ (1 : Int) + 4 = 5 := by
  exact ⟨by decide, by decide, by decide, by decide, by decide, by decide⟩

/-- C1, amended.  `two_sum` performs a single forward pass keeping a
map from each previously-seen value to its *most recent* index; when
a match is found it returns `[earlier_index, current_index]` with the
earlier index first; the pair returned is the one whose second index
is smallest among all valid pairs (no pair completes at any earlier
scan position), and the first component is the *largest* index below
the second at which the complement value occurred (no later duplicate
of that value sits between the two returned indices). -/
theorem two_sum_returns_latest_complement_index (arr : List Int) (target : Int)
    (i j : Nat) (h : two_sum arr target = some (i, j)) :
    i < j ∧ j < arr.length ∧
    (∃ x y, arr.get? i = some x ∧ arr.get? j = some y ∧ x + y = target) ∧
    (∀ q, q < j → ∀ p, p < q → ∀ x y, arr.get? p = some x → arr.get? q = some y →
      x + y ≠ target) ∧
    (∀ k x, i < k → k < j → arr.get? i = some x → ¬ arr.get? k = some x) :=
  (two_sum_spec arr target).1 i j h

/-- Witness for the amended C1 theorem at `two_sum [1, 1, 4] 5 = some (1, 2)`. -/
theorem two_sum_returns_latest_complement_index_witness :
    (1 : Nat) < 2 ∧ 2 < ([1, 1, 4] : List Int).length ∧
    (∃ x y, ([1, 1, 4] : List Int).get? 1 = some x ∧
      ([1, 1, 4] : List Int).get? 2 = some y ∧ x + y = 5) ∧
    (∀ q, q < 2 → ∀ p, p < q → ∀ x y, ([1, 1, 4] : List Int).get? p = some x →
      ([1, 1, 4] : List Int).get? q = some y → x + y ≠ 5) ∧
    (∀ k x, 1 < k → k < 2 → ([1, 1, 4] : List Int).get? 1 = some x →
      ¬ ([1, 1, 4] : List Int).get? k = some x) :=
  two_sum_returns_latest_complement_index [1, 1, 4] 5 1 2 (by decide)

/-- C9: whenever `two_sum` returns a pair `[i, j]`, the indices
satisfy `i < j` and the elements at those distinct positions sum to
the target, so an element is never paired with itself; in particular
`two_sum [5] 10` returns the no-pair sentinel `None`. -/
theorem two_sum_pair_sound :
    (∀ (arr : List Int) (target : Int) (i j : Nat),
      two_sum arr target = some (i, j) →
      i < j ∧ ∃ x y, arr.get? i = some x ∧ arr.get? j = some y ∧ x + y = target) ∧
    two_sum [5] 10 = none := by
  constructor
  · intro arr target i j h
    have hs := (two_sum_spec arr target).1 i j h
    exact ⟨hs.1, hs.2.2.1⟩
  · rfl

/-- Witness for C9 at `two_sum [2, 7] 9 = some (0, 1)`. -/
theorem two_sum_pair_sound_witness :
    (0 : Nat) < 1 ∧ ∃ x y, ([2, 7] : List Int).get? 0 = some x ∧
      ([2, 7] : List Int).get? 1 = some y ∧ x + y = 9 :=
  two_sum_pair_sound.1 [2, 7] 9 0 1 (by decide)

/-- C2: starting from `DynamicArray(c)` with `c >= 1`, after `k`
appends `length()` equals `k` and the capacity is `c * 2 ^ m` for the
least `m` making this at least `k` (equivalently, the smallest value
of the form `c * 2 ^ m` that is `>= k`). -/
theorem dynamicArray_append_length_capacity (c : Int) (hc : 1 ≤ c) (vs : List Int) :
    ((DynamicArray.init c).appendAll vs).length = vs.length ∧
    ∃ m : Nat, ((DynamicArray.init c).appendAll vs).capacity = c * 2 ^ m ∧
      (vs.length : Int) ≤ c * 2 ^ m ∧
      ∀ m' : Nat, (vs.length : Int) ≤ c * 2 ^ m' → c * 2 ^ m ≤ c * 2 ^ m' := by
  obtain ⟨hInv, hsize, hcap⟩ := appendAll_init_spec c hc vs
  obtain ⟨m, hm, hk, hmin⟩ := growCaps_spec c hc vs.length
  exact ⟨hsize, m, by rw [hcap, hm], hk, hmin⟩

/-- Witness for C2: three appends into `DynamicArray(2)`. -/
theorem dynamicArray_append_length_capacity_witness :
    ((DynamicArray.init 2).appendAll [1, 2, 3]).length = ([1, 2, 3] : List Int).length ∧
    ∃ m : Nat, ((DynamicArray.init 2).appendAll [1, 2, 3]).capacity = 2 * 2 ^ m ∧
      ((([1, 2, 3] : List Int).length : Nat) : Int) ≤ 2 * 2 ^ m ∧
      ∀ m' : Nat, ((([1, 2, 3] : List Int).length : Nat) : Int) ≤ 2 * 2 ^ m' →
        (2 : Int) * 2 ^ m ≤ 2 * 2 ^ m' :=
  dynamicArray_append_length_capacity 2 (by norm_num) [1, 2, 3]

/-- C3: the invariant `0 <= size <= capacity` holds after construction
with `capacity >= 1` and is preserved by every operation, whether it
succeeds or raises; moreover every operation either succeeds or raises
one of the explicitly-coded errors — never the interpreter IndexError
that the `_resize` copy loop would raise if `_resize` were invoked
with `new_capacity < size` — and at both `_resize` call sites
(doubling in `append`/`insert`, halving in `pop`) the requested new
capacity is at least the current size.  `Inv` additionally records the
buffer length so the preservation argument goes through. -/
theorem dynamicArray_invariant :
    (∀ a : DynamicArray, Inv a → 0 ≤ (a.size : Int) ∧ (a.size : Int) ≤ a.capacity) ∧
    (∀ c : Int, 1 ≤ c → Inv (DynamicArray.init c)) ∧
    (∀ a : DynamicArray, Inv a →
      (∀ v, Inv (a.append v).1 ∧ (a.append v).2 = .ok ()) ∧
      (∀ index v, Inv (a.insert index v).1 ∧
        ((a.insert index v).2 = .ok () ∨
         (a.insert index v).2 = .error "Index out of bounds")) ∧
      (∀ index, Inv (a.pop index).1 ∧
        ((∃ val, (a.pop index).2 = .ok val) ∨
         (a.pop index).2 = .error "Pop from empty array" ∨
         (a.pop index).2 = .error "Index out of bounds")) ∧
      (∀ v, Inv (a.remove v).1 ∧
        ((a.remove v).2 = .ok () ∨
         (a.remove v).2 = .error (toString v ++ " not found in array"))) ∧
      (∀ index v, Inv (a.setItem index v).1 ∧
        ((a.setItem index v).2 = .ok () ∨
         (a.setItem index v).2 = .error "Index out of bounds"))) ∧
    (∀ a : DynamicArray, Inv a → (a.size : Int) = a.capacity →
      (a.size : Int) ≤ 2 * a.capacity) ∧
    (∀ a : DynamicArray, Inv a → 0 < a.size →
      (a.size : Int) - 1 = a.capacity / 4 → (a.size : Int) - 1 ≤ a.capacity / 2) := by
  refine ⟨?_, ?_, ?_, ?_, ?_⟩
  · intro a h
    obtain ⟨⟨hsc, _⟩, _⟩ := h
    omega
  · intro c hc
    refine ⟨⟨?_, ?_⟩, hc⟩
    · show ((0 : Nat) : Int) ≤ c
      omega
    · show (List.replicate c.toNat (none : Option Int)).length = c.toNat
      simp
  · intro a h
    refine ⟨?_, ?_, ?_, ?_, ?_⟩
    · intro v
      have hs := append_spec a v h
      exact ⟨hs.2.1, hs.1⟩
    · intro index v
      by_cases hidx : 0 ≤ index ∧ index ≤ (a.size : Int)
      · have hs := insert_spec a index v h hidx
        exact ⟨hs.2.1, Or.inl hs.1⟩
      · rw [insert_oob a index v hidx]
        exact ⟨h, Or.inr rfl⟩
    · intro index
      by_cases hsz : a.size = 0
      · rw [pop_empty a index hsz]
        exact ⟨h, Or.inr (Or.inl rfl)⟩
      · by_cases hidx : 0 ≤ (if index < 0 then (a.size : Int) + index else index) ∧
            (if index < 0 then (a.size : Int) + index else index) < (a.size : Int)
        · have hs := pop_spec a index h hsz hidx
          obtain ⟨⟨val, _, hok⟩, hInv, _, _⟩ := hs
          exact ⟨hInv, Or.inl ⟨val, hok⟩⟩
        · rw [pop_oob a index hsz hidx]
          exact ⟨h, Or.inr (Or.inr rfl)⟩
    · intro v
      exact removeLoop_spec a v h 0
    · intro index v
      by_cases hidx : 0 ≤ index ∧ index < (a.size : Int)
      · have hs := setItem_spec a index v h hidx
        exact ⟨hs.2.1, Or.inl hs.1⟩
      · rw [setItem_oob a index v hidx]
        exact ⟨h, Or.inr rfl⟩
  · intro a h hfull
    obtain ⟨⟨hsc, _⟩, hcap⟩ := h
    omega
  · intro a h hpos hquarter
    obtain ⟨⟨hsc, _⟩, hcap⟩ := h
    omega

/-- Witness for C3: the invariant holds for `DynamicArray(2)` and is
kept by an `append`. -/
theorem dynamicArray_invariant_witness :
    Inv (DynamicArray.init 2) ∧ Inv ((DynamicArray.init 2).append 7).1 :=
  ⟨dynamicArray_invariant.2.1 2 (by norm_num),
   ((dynamicArray_invariant.2.2.1 (DynamicArray.init 2)
      (dynamicArray_invariant.2.1 2 (by norm_num))).1 7).1⟩

/-- C4: `get`, `set`, `insert` and `pop` detect an out-of-range index
before any mutation (the state returned along the error is exactly the
pre-call state, and `__getitem__` cannot mutate at all), and `remove`
of an absent value raises the not-found `ValueError` leaving the
array unmodified. -/
theorem dynamicArray_error_no_mutation :
    (∀ (a : DynamicArray) (index : Int), ¬ (0 ≤ index ∧ index < (a.size : Int)) →
      a.getItem index = .error "Index out of bounds") ∧
    (∀ (a : DynamicArray) (index v : Int), ¬ (0 ≤ index ∧ index < (a.size : Int)) →
      a.setItem index v = (a, .error "Index out of bounds")) ∧
    (∀ (a : DynamicArray) (index v : Int), ¬ (0 ≤ index ∧ index ≤ (a.size : Int)) →
      a.insert index v = (a, .error "Index out of bounds")) ∧
    (∀ (a : DynamicArray) (index : Int), a.size = 0 →
      a.pop index = (a, .error "Pop from empty array")) ∧
    (∀ (a : DynamicArray) (index : Int), ¬ a.size = 0 →
      ¬ (0 ≤ (if index < 0 then (a.size : Int) + index else index) ∧
         (if index < 0 then (a.size : Int) + index else index) < (a.size : Int)) →
      a.pop index = (a, .error "Index out of bounds")) ∧
    (∀ (a : DynamicArray) (v : Int), a.WF →
      (∀ k, k < a.size → ¬ a.array.get? k = some (some v)) →
      a.remove v = (a, .error (toString v ++ " not found in array"))) := by
  refine ⟨getItem_oob, setItem_oob, insert_oob, pop_empty, pop_oob, ?_⟩
  intro a v hwf hnone
  obtain ⟨hsc, hlen⟩ := hwf
  exact removeLoop_notfound a v (by omega) 0 (fun k _ hk2 => hnone k hk2)

/-- Witness for C4: a rejected `get` and an empty `pop` on
`DynamicArray(2)`, and a failing `remove` on the same fresh array. -/
theorem dynamicArray_error_no_mutation_witness :
    (DynamicArray.init 2).getItem 5 = .error "Index out of bounds" ∧
    (DynamicArray.init 2).pop 0 = (DynamicArray.init 2, .error "Pop from empty array") ∧
    (DynamicArray.init 2).remove 9 =
      (DynamicArray.init 2, .error (toString (9 : Int) ++ " not found in array")) :=
  ⟨dynamicArray_error_no_mutation.1 (DynamicArray.init 2) 5 (by decide),
   dynamicArray_error_no_mutation.2.2.2.1 (DynamicArray.init 2) 0 (by decide),
   dynamicArray_error_no_mutation.2.2.2.2.2 (DynamicArray.init 2) 9 (by decide)
     (by decide)⟩

/-- C5, counterexample.  The constructor performs no validation at
all: `DynamicArray(0)` and `DynamicArray(-3)` are constructed without
error and keep the given capacity, so an array with `capacity < 1`
*can* be constructed, refuting the claim that the constructor requires
`capacity >= 1` and rejects or clamps other values. -/
theorem dynamicArray_init_validation_refuted :
    (DynamicArray.init 0).capacity = 0 ∧ ¬ 1 ≤ (DynamicArray.init 0).capacity ∧
    (DynamicArray.init (-3)).capacity = -3 ∧ (DynamicArray.init 0).size = 0 := by
  exact ⟨rfl, by decide, rfl, rfl⟩

/-- C5, amended.  The constructor accepts *any* integer capacity
without validation, producing an empty array (`size == 0`) whose
stored capacity is exactly the argument and whose backing buffer
(`[None] * capacity`) has `max(capacity, 0)` slots. -/
theorem dynamicArray_init_accepts_any_capacity (c : Int) :
    (DynamicArray.init c).size = 0 ∧ (DynamicArray.init c).capacity = c ∧
    (DynamicArray.init c).array.length = c.toNat :=
  ⟨rfl, rfl, by simp [DynamicArray.init]⟩

/-- C6: on any well-formed array, `append(v)` followed by `pop()` (the
default index `-1`) succeeds, returns `v`, and restores `length()` to
its value before the append. -/
theorem dynamicArray_append_pop_roundtrip (a : DynamicArray) (v : Int) (h : Inv a) :
    (a.append v).2 = .ok () ∧
    ((a.append v).1.pop (-1)).2 = .ok (some v) ∧
    ((a.append v).1.pop (-1)).1.length = a.length := by
  obtain ⟨hok, hInv1, hsize1, hcap1, hget1⟩ := append_spec a v h
  have hsz : ¬ (a.append v).1.size = 0 := by omega
  have hres : (if (-1 : Int) < 0 then ((a.append v).1.size : Int) + (-1) else (-1)) =
      ((a.size : Nat) : Int) := by
    rw [if_pos (by norm_num)]
    omega
  have hidx : 0 ≤ (if (-1 : Int) < 0 then ((a.append v).1.size : Int) + (-1) else (-1)) ∧
      (if (-1 : Int) < 0 then ((a.append v).1.size : Int) + (-1) else (-1)) <
        ((a.append v).1.size : Int) := by
    rw [hres]
    omega
  obtain ⟨⟨val, hval, hpop2⟩, hInv2, hsize2, hcap2⟩ :=
    pop_spec (a.append v).1 (-1) hInv1 hsz hidx
  rw [hres] at hval
  have hvv : val = some v := by
    rw [Int.toNat_natCast, hget1] at hval
    exact (Option.some.inj hval).symm
  refine ⟨hok, ?_, ?_⟩
  · rw [hpop2, hvv]
  · show ((a.append v).1.pop (-1)).1.size = a.size
    omega

/-- Witness for C6 on a fresh `DynamicArray(3)` and the value 42. -/
theorem dynamicArray_append_pop_roundtrip_witness :
    ((DynamicArray.init 3).append 42).2 = .ok () ∧
    (((DynamicArray.init 3).append 42).1.pop (-1)).2 = .ok (some 42) ∧
    (((DynamicArray.init 3).append 42).1.pop (-1)).1.length = (DynamicArray.init 3).length :=
  dynamicArray_append_pop_roundtrip (DynamicArray.init 3) 42 (by decide)

/-! ### Sorting algorithms, from src/algorithms/sorting.py

The Python functions compare elements with the element type's own
`>`, `<=` and `<` operators.  The embeddings of `bubble_sort`,
`insertion_sort` and `merge`/`merge_sort` take the Boolean comparison
the code invokes as a parameter (`gtb` for `>`, `leb` for `<=`), so a
single definition covers every element type with such comparisons —
in particular both plain ordered values and records compared by a
key, which is what the stability claims are about.  `quick_sort` uses
`<`, `==` and `>` together with the builtin `sorted`, and is embedded
for a `LinearOrder`. -/

section Sorting

variable {α : Type} (gtb : α → α → Bool) (leb : α → α → Bool)

/-- One pass `for j in range(0, n - i - 1): if arr[j] > arr[j + 1]: swap`
of `bubble_sort`, with `k` the number of comparisons remaining in the
pass; returns the array and the `swapped` flag.  An in-place swap
carries the larger element into the next comparison, which the
recursion mirrors by keeping `a` at the head of the tail call. -/
def bubblePass : Nat → List α → List α × Bool
  | 0, l => (l, false)
  | _ + 1, [] => ([], false)
  | _ + 1, [a] => ([a], false)
  | k + 1, a :: b :: rest =>
    if gtb a b then
      (b :: (bubblePass k (a :: rest)).1, true)
    else
      (a :: (bubblePass k (b :: rest)).1, (bubblePass k (b :: rest)).2)

/-- The outer loop `for i in range(n)` of `bubble_sort`, passing
`n - i - 1` comparisons to each inner pass and stopping early when a
pass swaps nothing. -/
def bubbleGo (n : Nat) (i : Nat) (l : List α) : List α :=
  if i < n then
    let p := bubblePass gtb (n - i - 1) l
    if p.2 then bubbleGo n (i + 1) p.1 else p.1
  else l
termination_by n - i

/-- `bubble_sort(arr)`: works on a copy (the input is not mutated),
`n = len(arr)`, then the swap passes. -/
def bubble_sort (l : List α) : List α :=
  bubbleGo gtb l.length 0 l

/-- The effect, on the sorted prefix, of one step of `insertion_sort`:
`key = arr[i]` is shifted left past every element strictly greater
than it (`while j >= 0 and arr[j] > key`), i.e. it is inserted after
the longest prefix of elements that are not `> key`. -/
def insort (x : α) : List α → List α
  | [] => [x]
  | y :: ys => if gtb y x then x :: y :: ys else y :: insort x ys

/-- `insertion_sort(arr)`: the sorted prefix `arr[0..i-1]` grows by
inserting each `arr[i]` in turn; the suffix is untouched until its
element is read, so the in-place loop computes exactly this fold. -/
def insertion_sort (l : List α) : List α :=
  l.foldl (fun acc x => insort gtb x acc) []

/-- `merge(left, right)`: the two-pointer merge, taking from `left`
when `left[i] <= right[j]`, then extending with the leftovers. -/
def merge : List α → List α → List α
  | [], r => r
  | l, [] => l
  | a :: l, b :: r =>
    if leb a b then a :: merge l (b :: r) else b :: merge (a :: l) r
termination_by l r => l.length + r.length

/-- `merge_sort(arr)`: length-1-or-less lists are returned as given;
otherwise split at `mid = len(arr) // 2` (`arr[:mid]` and `arr[mid:]`)
and merge the recursively sorted halves. -/
def merge_sort (l : List α) : List α :=
  if h : l.length ≤ 1 then l
  else
    merge leb (merge_sort (l.take (l.length / 2))) (merge_sort (l.drop (l.length / 2)))
termination_by l.length
decreasing_by
  · simp only [List.length_take]
    omega
  · simp only [List.length_drop]
    omega

/-! #### Permutation lemmas for the generic sorts -/

theorem bubblePass_perm (k : Nat) (l : List α) :
    List.Perm (bubblePass gtb k l).1 l := by
  induction k, l using bubblePass.induct gtb with
  | case1 l => exact List.Perm.refl l
  | case2 k => exact List.Perm.refl []
  | case3 k a => exact List.Perm.refl [a]
  | case4 k a b rest hab ih =>
    rw [bubblePass, if_pos hab]
    exact (ih.cons b).trans (List.Perm.swap a b rest)
  | case5 k a b rest hab ih =>
    rw [bubblePass, if_neg hab]
    exact ih.cons a

theorem bubbleGo_perm (n i : Nat) (l : List α) :
    List.Perm (bubbleGo gtb n i l) l := by
  induction i, l using bubbleGo.induct gtb n with
  | case1 i l hin p hsw ih =>
    rw [bubbleGo, if_pos hin]
    dsimp only
    rw [if_pos hsw]
    exact ih.trans (bubblePass_perm gtb (n - i - 1) l)
  | case2 i l hin p hsw =>
    rw [bubbleGo, if_pos hin]
    dsimp only
    rw [if_neg hsw]
    exact bubblePass_perm gtb (n - i - 1) l
  | case3 i l hin =>
    rw [bubbleGo, if_neg hin]

theorem insort_perm (x : α) (l : List α) :
    List.Perm (insort gtb x l) (x :: l) := by
  induction l with
  | nil => exact List.Perm.refl [x]
  | cons y ys ih =>
    rw [insort]
    by_cases h : gtb y x = true
    · rw [if_pos h]
    · rw [if_neg h]
      exact (ih.cons y).trans (List.Perm.swap x y ys)

theorem insort_foldl_perm (l acc : List α) :
    List.Perm (l.foldl (fun acc x => insort gtb x acc) acc) (acc ++ l) := by
  induction l generalizing acc with
  | nil => simp
  | cons x l ih =>
    rw [List.foldl_cons]
    refine (ih (insort gtb x acc)).trans ?_
    refine (List.Perm.append_right l (insort_perm gtb x acc)).trans ?_
    exact List.perm_middle.symm

theorem insertion_sort_perm (l : List α) :
    List.Perm (insertion_sort gtb l) l := by
  simpa using insort_foldl_perm gtb l []

theorem merge_perm (l r : List α) :
    List.Perm (merge leb l r) (l ++ r) := by
  induction l generalizing r with
  | nil => simp [merge]
  | cons a l ihl =>
    induction r with
    | nil => simp [merge]
    | cons b r ihr =>
      rw [merge]
      by_cases h : leb a b = true
      · rw [if_pos h]
        show List.Perm (a :: merge leb l (b :: r)) (a :: (l ++ b :: r))
        exact (ihl (b :: r)).cons a
      · rw [if_neg h]
        exact (ihr.cons b).trans List.perm_middle.symm

/-- Prefixes grow with the index. -/
theorem take_subset_take (l : List α) (m n : Nat) (h : m ≤ n) :
    l.take m ⊆ l.take n := by
  intro x hx
  rw [show l.take m = (l.take n).take m by
    rw [List.take_take]; congr 1; omega] at hx
  exact List.take_subset m (l.take n) hx

/-- A pass that reports no swap left the array unchanged, and its
first `k` adjacent comparisons all failed, so the first `k + 1`
elements are mutually in order. -/
theorem bubblePass_false
    (Htrans : ∀ x y z, gtb x y = false → gtb y z = false → gtb x z = false)
    (k : Nat) (l : List α) (h : (bubblePass gtb k l).2 = false) :
    (bubblePass gtb k l).1 = l ∧
    List.Pairwise (fun x y => gtb x y = false) (l.take (k + 1)) := by
  induction k, l using bubblePass.induct gtb with
  | case1 l =>
    refine ⟨rfl, ?_⟩
    cases l <;> simp
  | case2 k => exact ⟨rfl, by simp⟩
  | case3 k a => exact ⟨rfl, by simp⟩
  | case4 k a b rest hab ih =>
    exfalso
    rw [bubblePass, if_pos hab] at h
    simp at h
  | case5 k a b rest hab ih =>
    rw [bubblePass, if_neg hab] at h ⊢
    have hab' : gtb a b = false := by simpa using hab
    obtain ⟨h1, h2⟩ := ih h
    refine ⟨by rw [h1], ?_⟩
    rw [List.take_succ_cons]
    rw [List.take_succ_cons] at h2
    rcases List.pairwise_cons.mp h2 with ⟨hb, hrest⟩
    refine List.pairwise_cons.mpr ⟨?_, h2⟩
    intro z hz
    rw [List.take_succ_cons] at hz
    rcases List.mem_cons.mp hz with rfl | hz'
    · exact hab'
    · exact Htrans a b z hab' (hb z hz')

/-- The effect of one pass of `k` comparisons on a list longer than
`k`: positions beyond `k` are untouched, the first `k + 1` elements
are permuted, and the element that ends at position `k` dominates all
of the first `k + 1` elements. -/
theorem bubblePass_max
    (Hasym : ∀ x y, gtb x y = true → gtb y x = false)
    (Htrans : ∀ x y z, gtb x y = false → gtb y z = false → gtb x z = false)
    (k : Nat) (l : List α) (hk : k < l.length) :
    (bubblePass gtb k l).1.drop (k + 1) = l.drop (k + 1) ∧
    List.Perm ((bubblePass gtb k l).1.take (k + 1)) (l.take (k + 1)) ∧
    ∃ m, (bubblePass gtb k l).1.get? k = some m ∧
      ∀ x ∈ (bubblePass gtb k l).1.take (k + 1), gtb x m = false := by
  have Hirr : ∀ x, gtb x x = false := by
    intro x
    cases hx : gtb x x with
    | false => rfl
    | true =>
      have := Hasym x x hx
      rw [hx] at this
      simp at this
  induction k, l using bubblePass.induct gtb with
  | case1 l =>
    match l, hk with
    | c :: t, _ =>
      refine ⟨rfl, List.Perm.refl _, c, rfl, ?_⟩
      intro x hx
      rw [show (bubblePass gtb 0 (c :: t)).1 = c :: t from rfl] at hx
      simp only [List.take_succ_cons, List.take_zero, List.mem_singleton] at hx
      subst hx
      exact Hirr x
  | case2 k => exact absurd hk (by simp)
  | case3 k a =>
    exfalso
    rw [List.length_singleton] at hk
    omega
  | case4 k a b rest hab ih =>
    have hk' : k < (a :: rest).length := by simp at hk ⊢; omega
    obtain ⟨ihd, ihp, m, ihm, ihb⟩ := ih hk'
    rw [bubblePass, if_pos hab]
    dsimp only
    refine ⟨?_, ?_, m, ?_, ?_⟩
    · simp only [List.drop_succ_cons]
      rw [ihd]
      simp only [List.drop_succ_cons]
    · simp only [List.take_succ_cons]
      refine (ihp.cons b).trans ?_
      simp only [List.take_succ_cons]
      exact List.Perm.swap a b (rest.take k)
    · rw [List.get?_cons_succ]
      exact ihm
    · intro x hx
      rw [List.take_succ_cons] at hx
      rcases List.mem_cons.mp hx with rfl | hx'
      · have hba : gtb x a = false := Hasym a x hab
        have ham : gtb a m = false := by
          refine ihb a (ihp.mem_iff.mpr ?_)
          rw [List.take_succ_cons]
          exact List.mem_cons_self a (rest.take k)
        exact Htrans x a m hba ham
      · exact ihb x hx'
  | case5 k a b rest hab ih =>
    have hab' : gtb a b = false := by simpa using hab
    have hk' : k < (b :: rest).length := by simp at hk ⊢; omega
    obtain ⟨ihd, ihp, m, ihm, ihb⟩ := ih hk'
    rw [bubblePass, if_neg hab]
    dsimp only
    refine ⟨?_, ?_, m, ?_, ?_⟩
    · simp only [List.drop_succ_cons]
      rw [ihd]
      simp only [List.drop_succ_cons]
    · simp only [List.take_succ_cons]
      exact ihp.cons a
    · rw [List.get?_cons_succ]
      exact ihm
    · intro x hx
      rw [List.take_succ_cons] at hx
      rcases List.mem_cons.mp hx with rfl | hx'
      · have hbm : gtb b m = false := by
          refine ihb b (ihp.mem_iff.mpr ?_)
          rw [List.take_succ_cons]
          exact List.mem_cons_self b (rest.take k)
        exact Htrans x b m hab' hbm
      · exact ihb x hx'

/-- The invariant of the outer bubble loop: before iteration `i`, the
last `i` positions hold a sorted suffix dominating the unsorted
region; every later state keeps it, and both exits (early exit on a
swap-free pass, loop exhaustion) deliver a fully sorted array. -/
theorem bubbleGo_sorted
    (Hasym : ∀ x y, gtb x y = true → gtb y x = false)
    (Htrans : ∀ x y z, gtb x y = false → gtb y z = false → gtb x z = false)
    (n : Nat) (i : Nat) (l : List α) :
    l.length = n →
    List.Pairwise (fun x y => gtb x y = false) (l.drop (n - i)) →
    (∀ x ∈ l.take (n - i), ∀ y ∈ l.drop (n - i), gtb x y = false) →
    List.Pairwise (fun x y => gtb x y = false) (bubbleGo gtb n i l) := by
  induction i, l using bubbleGo.induct gtb n with
  | case1 i l hin p hsw ih =>
    intro hlen hsorted hcross
    have hk : n - i - 1 < l.length := by omega
    obtain ⟨hd, hperm, m, hm, hbound⟩ := bubblePass_max gtb Hasym Htrans (n - i - 1) l hk
    have hki : n - i - 1 + 1 = n - i := by omega
    have hplen : p.1.length = n := by
      rw [(bubblePass_perm gtb (n - i - 1) l).length_eq, hlen]
    have hmemm : m ∈ l.take (n - i) := by
      rw [← hki]
      refine hperm.mem_iff.mp ?_
      have hmt : (p.1.take (n - i - 1 + 1)).get? (n - i - 1) = some m := by
        rw [List.get?_take (by omega)]
        exact hm
      exact List.get?_mem hmt
    have hdropp : p.1.drop (n - (i + 1)) = m :: l.drop (n - i) := by
      have h1 : n - (i + 1) < p.1.length := by omega
      rw [List.drop_eq_getElem_cons h1]
      have h2 : p.1[n - (i + 1)] = m := by
        have := hm
        rw [List.get?_eq_getElem?, List.getElem?_eq_getElem (by omega :
          n - i - 1 < p.1.length)] at this
        have h3 : n - (i + 1) = n - i - 1 := by omega
        rw [show p.1[n - (i + 1)] = p.1[n - i - 1] from by congr 1]
        exact Option.some.inj this
      rw [h2]
      congr 1
      rw [show n - (i + 1) + 1 = n - i - 1 + 1 from by omega, hd, hki]
    -- the new sorted suffix is m on top of the old one
    rw [bubbleGo, if_pos hin]
    dsimp only
    rw [if_pos hsw]
    refine ih hplen ?_ ?_
    · rw [hdropp]
      refine List.pairwise_cons.mpr ⟨?_, ?_⟩
      · intro y hy
        exact hcross m hmemm y hy
      · exact hsorted
    · intro x hx y hy
      rw [hdropp] at hy
      have hx' : x ∈ p.1.take (n - i - 1 + 1) :=
        take_subset_take p.1 (n - (i + 1)) (n - i - 1 + 1) (by omega) hx
      rcases List.mem_cons.mp hy with rfl | hy'
      · exact hbound x hx'
      · refine hcross x ?_ y hy'
        rw [← hki]
        exact hperm.mem_iff.mp hx'
  | case2 i l hin p hsw =>
    intro hlen hsorted hcross
    have hsw' : p.2 = false := by simpa using hsw
    obtain ⟨h1, h2⟩ := bubblePass_false gtb Htrans (n - i - 1) l hsw'
    rw [bubbleGo, if_pos hin]
    dsimp only
    rw [if_neg hsw, h1]
    rw [← List.take_append_drop (n - i) l]
    refine List.pairwise_append.mpr ⟨?_, hsorted, hcross⟩
    rw [show n - i = n - i - 1 + 1 from by omega]
    exact h2
  | case3 i l hin =>
    intro hlen hsorted hcross
    rw [bubbleGo, if_neg hin]
    have h0 : n - i = 0 := by omega
    rw [h0, List.drop_zero] at hsorted
    exact hsorted

/-- `bubble_sort` sorts, for any asymmetric transitive-complement
strict comparison. -/
theorem bubble_sort_sorted
    (Hasym : ∀ x y, gtb x y = true → gtb y x = false)
    (Htrans : ∀ x y z, gtb x y = false → gtb y z = false → gtb x z = false)
    (l : List α) :
    List.Pairwise (fun x y => gtb x y = false) (bubble_sort gtb l) := by
  refine bubbleGo_sorted gtb Hasym Htrans l.length 0 l rfl ?_ ?_
  · rw [Nat.sub_zero, List.drop_length]
    exact List.Pairwise.nil
  · intro x hx y hy
    rw [Nat.sub_zero, List.drop_length] at hy
    cases hy

theorem bubble_sort_perm (l : List α) :
    List.Perm (bubble_sort gtb l) l :=
  bubbleGo_perm gtb l.length 0 l

theorem merge_sort_perm (l : List α) :
    List.Perm (merge_sort leb l) l := by
  induction l using merge_sort.induct leb with
  | case1 l h =>
    rw [merge_sort, dif_pos h]
  | case2 l h ih1 ih2 =>
    rw [merge_sort, dif_neg h]
    refine (merge_perm leb _ _).trans ?_
    refine ((ih1.append ih2).trans ?_)
    rw [List.take_append_drop]

/-! #### Sortedness of the insertion and merge sorts -/

theorem insort_sorted
    (Hasym : ∀ x y, gtb x y = true → gtb y x = false)
    (Htrans : ∀ x y z, gtb x y = false → gtb y z = false → gtb x z = false)
    (x : α) (l : List α) (h : List.Pairwise (fun u v => gtb u v = false) l) :
    List.Pairwise (fun u v => gtb u v = false) (insort gtb x l) := by
  induction l with
  | nil => simp [insort]
  | cons y ys ih =>
    rcases List.pairwise_cons.mp h with ⟨hy, hys⟩
    rw [insort]
    by_cases hyx : gtb y x = true
    · rw [if_pos hyx]
      refine List.pairwise_cons.mpr ⟨?_, h⟩
      intro z hz
      rcases List.mem_cons.mp hz with rfl | hz'
      · exact Hasym z x hyx
      · exact Htrans x y z (Hasym y x hyx) (hy z hz')
    · rw [if_neg hyx]
      have hyx' : gtb y x = false := by simpa using hyx
      refine List.pairwise_cons.mpr ⟨?_, ih hys⟩
      intro z hz
      rcases List.mem_cons.mp ((insort_perm gtb x ys).mem_iff.mp hz) with rfl | hz'
      · exact hyx'
      · exact hy z hz'

theorem insort_foldl_sorted
    (Hasym : ∀ x y, gtb x y = true → gtb y x = false)
    (Htrans : ∀ x y z, gtb x y = false → gtb y z = false → gtb x z = false) :
    ∀ (l acc : List α), List.Pairwise (fun u v => gtb u v = false) acc →
      List.Pairwise (fun u v => gtb u v = false)
        (l.foldl (fun acc x => insort gtb x acc) acc) := by
  intro l
  induction l with
  | nil => intro acc hacc; simpa using hacc
  | cons x l ih =>
    intro acc hacc
    rw [List.foldl_cons]
    exact ih (insort gtb x acc) (insort_sorted gtb Hasym Htrans x acc hacc)

theorem insertion_sort_sorted
    (Hasym : ∀ x y, gtb x y = true → gtb y x = false)
    (Htrans : ∀ x y z, gtb x y = false → gtb y z = false → gtb x z = false)
    (l : List α) :
    List.Pairwise (fun u v => gtb u v = false) (insertion_sort gtb l) :=
  insort_foldl_sorted gtb Hasym Htrans l [] List.Pairwise.nil

theorem merge_sorted
    (Htot : ∀ x y, leb x y = false → leb y x = true)
    (Htrans : ∀ x y z, leb x y = true → leb y z = true → leb x z = true) :
    ∀ (l r : List α), List.Pairwise (fun u v => leb u v = true) l →
      List.Pairwise (fun u v => leb u v = true) r →
      List.Pairwise (fun u v => leb u v = true) (merge leb l r) := by
  intro l
  induction l with
  | nil =>
    intro r _ hr
    simpa [merge] using hr
  | cons a l ihl =>
    intro r
    induction r with
    | nil =>
      intro hl _
      simpa [merge] using hl
    | cons b r ihr =>
      intro hl hr
      rcases List.pairwise_cons.mp hl with ⟨ha, hl'⟩
      rcases List.pairwise_cons.mp hr with ⟨hb, hr'⟩
      rw [merge]
      by_cases hab : leb a b = true
      · rw [if_pos hab]
        refine List.pairwise_cons.mpr ⟨?_, ihl (b :: r) hl' hr⟩
        intro z hz
        rcases List.mem_append.mp ((merge_perm leb l (b :: r)).mem_iff.mp hz)
          with hz' | hz'
        · exact ha z hz'
        · rcases List.mem_cons.mp hz' with rfl | hz''
          · exact hab
          · exact Htrans a b z hab (hb z hz'')
      · rw [if_neg hab]
        have hba : leb b a = true := Htot a b (by simpa using hab)
        refine List.pairwise_cons.mpr ⟨?_, ihr hl hr'⟩
        intro z hz
        rcases List.mem_append.mp ((merge_perm leb (a :: l) r).mem_iff.mp hz)
          with hz' | hz'
        · rcases List.mem_cons.mp hz' with rfl | hz''
          · exact hba
          · exact Htrans b a z hba (ha z hz'')
        · exact hb z hz'

theorem merge_sort_sorted
    (Htot : ∀ x y, leb x y = false → leb y x = true)
    (Htrans : ∀ x y z, leb x y = true → leb y z = true → leb x z = true)
    (l : List α) :
    List.Pairwise (fun u v => leb u v = true) (merge_sort leb l) := by
  induction l using merge_sort.induct leb with
  | case1 l h =>
    rw [merge_sort, dif_pos h]
    match l, h with
    | [], _ => exact List.Pairwise.nil
    | [a], _ => simp
  | case2 l h ih1 ih2 =>
    rw [merge_sort, dif_neg h]
    exact merge_sorted leb Htot Htrans _ _ ih1 ih2

/-! #### Stability of bubble, insertion and merge sort

Stability is proved for an arbitrary relation `S` on elements that is
compatible with the comparison: pairs the algorithm may reorder are
`S`-irrelevant.  Instantiated with position-tagged elements compared
by value, `S p q := (p.2 = q.2 → p.1 < q.1)` states exactly that
value-equal elements keep their original relative order. -/

theorem bubblePass_stable (S : α → α → Prop)
    (Hswap : ∀ u v, gtb u v = true → S v u) (k : Nat) (l : List α)
    (h : List.Pairwise S l) : List.Pairwise S (bubblePass gtb k l).1 := by
  induction k, l using bubblePass.induct gtb with
  | case1 l => exact h
  | case2 k => exact h
  | case3 k a => exact h
  | case4 k a b rest hab ih =>
    rcases List.pairwise_cons.mp h with ⟨h1, h2⟩
    rcases List.pairwise_cons.mp h2 with ⟨h2a, h2b⟩
    rw [bubblePass, if_pos hab]
    dsimp only
    refine List.pairwise_cons.mpr ⟨?_, ?_⟩
    · intro z hz
      rcases List.mem_cons.mp
        ((bubblePass_perm gtb k (a :: rest)).mem_iff.mp hz) with rfl | hz'
      · exact Hswap z b hab
      · exact h2a z hz'
    · refine ih (List.pairwise_cons.mpr ⟨?_, h2b⟩)
      intro z hz
      exact h1 z (List.mem_cons_of_mem b hz)
  | case5 k a b rest hab ih =>
    rcases List.pairwise_cons.mp h with ⟨h1, h2⟩
    rw [bubblePass, if_neg hab]
    dsimp only
    refine List.pairwise_cons.mpr ⟨?_, ih h2⟩
    intro z hz
    exact h1 z ((bubblePass_perm gtb k (b :: rest)).mem_iff.mp hz)

theorem bubbleGo_stable (S : α → α → Prop)
    (Hswap : ∀ u v, gtb u v = true → S v u) (n i : Nat) (l : List α) :
    List.Pairwise S l → List.Pairwise S (bubbleGo gtb n i l) := by
  induction i, l using bubbleGo.induct gtb n with
  | case1 i l hin p hsw ih =>
    intro h
    rw [bubbleGo, if_pos hin]
    dsimp only
    rw [if_pos hsw]
    exact ih (bubblePass_stable gtb S Hswap (n - i - 1) l h)
  | case2 i l hin p hsw =>
    intro h
    rw [bubbleGo, if_pos hin]
    dsimp only
    rw [if_neg hsw]
    exact bubblePass_stable gtb S Hswap (n - i - 1) l h
  | case3 i l hin =>
    intro h
    rw [bubbleGo, if_neg hin]
    exact h

theorem bubble_sort_stable (S : α → α → Prop)
    (Hswap : ∀ u v, gtb u v = true → S v u) (l : List α)
    (h : List.Pairwise S l) : List.Pairwise S (bubble_sort gtb l) :=
  bubbleGo_stable gtb S Hswap l.length 0 l h

theorem insort_stable (S : α → α → Prop) (x : α) (l : List α)
    (hsorted : List.Pairwise (fun u v => gtb u v = false) l)
    (hpair : List.Pairwise S l)
    (hx : ∀ y ∈ l, S y x)
    (hdisp : ∀ z, gtb z x = true → S x z)
    (hprop : ∀ z z', gtb z x = true → gtb z z' = false → S x z') :
    List.Pairwise S (insort gtb x l) := by
  induction l with
  | nil => simp [insort]
  | cons y ys ih =>
    rcases List.pairwise_cons.mp hsorted with ⟨hsy, hsys⟩
    rcases List.pairwise_cons.mp hpair with ⟨hpy, hpys⟩
    rw [insort]
    by_cases hyx : gtb y x = true
    · rw [if_pos hyx]
      refine List.pairwise_cons.mpr ⟨?_, hpair⟩
      intro z hz
      rcases List.mem_cons.mp hz with rfl | hz'
      · exact hdisp z hyx
      · exact hprop y z hyx (hsy z hz')
    · rw [if_neg hyx]
      refine List.pairwise_cons.mpr ⟨?_, ?_⟩
      · intro z hz
        rcases List.mem_cons.mp ((insort_perm gtb x ys).mem_iff.mp hz) with rfl | hz'
        · exact hx y (List.mem_cons_self y ys)
        · exact hpy z hz'
      · exact ih hsys hpys (fun y' hy' => hx y' (List.mem_cons_of_mem y hy'))

theorem insort_foldl_stable (S : α → α → Prop)
    (Hasym : ∀ x y, gtb x y = true → gtb y x = false)
    (Htrans : ∀ x y z, gtb x y = false → gtb y z = false → gtb x z = false)
    (Hswap : ∀ u v, gtb u v = true → S v u)
    (Hprop : ∀ x z z', gtb z x = true → gtb z z' = false → S x z') :
    ∀ (l acc : List α),
      List.Pairwise (fun u v => gtb u v = false) acc →
      List.Pairwise S acc →
      (∀ y ∈ acc, ∀ x ∈ l, S y x) →
      List.Pairwise S l →
      List.Pairwise S (l.foldl (fun acc x => insort gtb x acc) acc) := by
  intro l
  induction l with
  | nil =>
    intro acc _ hSa _ _
    simpa using hSa
  | cons x l ih =>
    intro acc hsa hSa hcross hSl
    rcases List.pairwise_cons.mp hSl with ⟨hSx, hSl'⟩
    rw [List.foldl_cons]
    refine ih (insort gtb x acc)
      (insort_sorted gtb Hasym Htrans x acc hsa)
      (insort_stable gtb S x acc hsa hSa
        (fun y hy => hcross y hy x (List.mem_cons_self x l))
        (fun z hz => Hswap z x hz)
        (fun z z' h1 h2 => Hprop x z z' h1 h2))
      ?_ hSl'
    intro y hy x' hx'
    rcases List.mem_cons.mp ((insort_perm gtb x acc).mem_iff.mp hy) with rfl | hy'
    · exact hSx x' hx'
    · exact hcross y hy' x' (List.mem_cons_of_mem x hx')

theorem insertion_sort_stable (S : α → α → Prop)
    (Hasym : ∀ x y, gtb x y = true → gtb y x = false)
    (Htrans : ∀ x y z, gtb x y = false → gtb y z = false → gtb x z = false)
    (Hswap : ∀ u v, gtb u v = true → S v u)
    (Hprop : ∀ x z z', gtb z x = true → gtb z z' = false → S x z')
    (l : List α) (h : List.Pairwise S l) :
    List.Pairwise S (insertion_sort gtb l) :=
  insort_foldl_stable gtb S Hasym Htrans Hswap Hprop l []
    List.Pairwise.nil List.Pairwise.nil (by simp) h

theorem merge_stable (S : α → α → Prop)
    (Hba : ∀ a b, leb a b = false → S b a)
    (Hbx : ∀ a b x, leb a b = false → leb a x = true → S b x) :
    ∀ (l r : List α),
      List.Pairwise (fun u v => leb u v = true) l →
      List.Pairwise S l → List.Pairwise S r →
      (∀ x ∈ l, ∀ y ∈ r, S x y) →
      List.Pairwise S (merge leb l r) := by
  intro l
  induction l with
  | nil =>
    intro r _ _ hSr _
    simpa [merge] using hSr
  | cons a l ihl =>
    intro r
    induction r with
    | nil =>
      intro _ hSl _ _
      simpa [merge] using hSl
    | cons b r ihr =>
      intro hsl hSl hSr hcross
      rcases List.pairwise_cons.mp hsl with ⟨hsa, hsl'⟩
      rcases List.pairwise_cons.mp hSl with ⟨hSa, hSl'⟩
      rcases List.pairwise_cons.mp hSr with ⟨hSb, hSr'⟩
      rw [merge]
      by_cases hab : leb a b = true
      · rw [if_pos hab]
        refine List.pairwise_cons.mpr ⟨?_, ?_⟩
        · intro z hz
          rcases List.mem_append.mp ((merge_perm leb l (b :: r)).mem_iff.mp hz)
            with hz' | hz'
          · exact hSa z hz'
          · exact hcross a (List.mem_cons_self a l) z hz'
        · exact ihl (b :: r) hsl' hSl' hSr
            (fun x hx y hy => hcross x (List.mem_cons_of_mem a hx) y hy)
      · rw [if_neg hab]
        have hab' : leb a b = false := by simpa using hab
        refine List.pairwise_cons.mpr ⟨?_, ?_⟩
        · intro z hz
          rcases List.mem_append.mp ((merge_perm leb (a :: l) r).mem_iff.mp hz)
            with hz' | hz'
          · rcases List.mem_cons.mp hz' with rfl | hz''
            · exact Hba z b hab'
            · exact Hbx a b z hab' (hsa z hz'')
          · exact hSb z hz'
        · exact ihr hsl hSl hSr'
            (fun x hx y hy => hcross x hx y (List.mem_cons_of_mem b hy))

theorem merge_sort_stable (S : α → α → Prop)
    (Htot : ∀ x y, leb x y = false → leb y x = true)
    (Htrans : ∀ x y z, leb x y = true → leb y z = true → leb x z = true)
    (Hba : ∀ a b, leb a b = false → S b a)
    (Hbx : ∀ a b x, leb a b = false → leb a x = true → S b x) :
    ∀ l : List α, List.Pairwise S l → List.Pairwise S (merge_sort leb l) := by
  intro l
  induction l using merge_sort.induct leb with
  | case1 l h =>
    intro hS
    rw [merge_sort, dif_pos h]
    exact hS
  | case2 l h ih1 ih2 =>
    intro hS
    have hsplit := hS
    rw [← List.take_append_drop (l.length / 2) l] at hsplit
    rcases List.pairwise_append.mp hsplit with ⟨hS1, hS2, hScross⟩
    rw [merge_sort, dif_neg h]
    refine merge_stable leb S Hba Hbx _ _
      (merge_sort_sorted leb Htot Htrans _) (ih1 hS1) (ih2 hS2) ?_
    intro x hx y hy
    exact hScross x ((merge_sort_perm leb _).mem_iff.mp hx) y
      ((merge_sort_perm leb _).mem_iff.mp hy)

end Sorting

/-! #### quick_sort, from src/algorithms/sorting.py -/

theorem getD_mem {α : Type} (l : List α) (n : Nat) (d : α) (h : n < l.length) :
    l.getD n d ∈ l := by
  rw [List.getD_eq_getElem l d h]
  exact List.getElem_mem h

theorem length_filter_lt {α : Type} (p : α → Bool) (l : List α) (x : α)
    (hx : x ∈ l) (hpx : ¬ p x = true) : (l.filter p).length < l.length := by
  have h1 : (l.filter p).length ≤ l.length := List.length_filter_le p l
  rcases Nat.lt_or_ge (l.filter p).length l.length with h | h
  · exact h
  · exact absurd (List.filter_length_eq_length.mp (Nat.le_antisymm h1 h) x hx) hpx

section QuickSort

variable {α : Type} [LinearOrder α]

/-- `sorted([arr[0], arr[len(arr)//2], arr[-1]])[1]`.  Python's
builtin `sorted` returns the ascending sorted permutation of its
argument, which is unique for a list over a linear order, so any of
the sort embeddings computes it; we use `insertion_sort` with the
order's `>`. -/
def med3 (a b c : α) : α :=
  (insertion_sort (fun x y : α => decide (y < x)) [a, b, c]).getD 1 a

/-- The pivot of `quick_sort` on the nonempty list `a :: rest`:
median of first, middle (`arr[len(arr)//2]`) and last (`arr[-1]`)
elements. -/
def quickPivot (a : α) (l : List α) : α :=
  med3 a (l.getD (l.length / 2) a) (l.getD (l.length - 1) a)

theorem med3_mem (a b c : α) : med3 a b c ∈ [a, b, c] := by
  have hp := insertion_sort_perm (fun x y : α => decide (y < x)) [a, b, c]
  have hlen : (insertion_sort (fun x y : α => decide (y < x)) [a, b, c]).length = 3 := by
    rw [hp.length_eq]
    rfl
  refine hp.mem_iff.mp ?_
  rw [med3, List.getD_eq_getElem _ a (by omega)]
  exact List.getElem_mem (by omega)

theorem quickPivot_mem (a : α) (rest : List α) : quickPivot a (a :: rest) ∈ a :: rest := by
  have h2 : (a :: rest).length / 2 < (a :: rest).length := by
    simp only [List.length_cons]
    omega
  have h3 : (a :: rest).length - 1 < (a :: rest).length := by
    simp only [List.length_cons]
    omega
  have hb := getD_mem (a :: rest) ((a :: rest).length / 2) a h2
  have hc := getD_mem (a :: rest) ((a :: rest).length - 1) a h3
  have hm := med3_mem a ((a :: rest).getD ((a :: rest).length / 2) a)
    ((a :: rest).getD ((a :: rest).length - 1) a)
  rw [show quickPivot a (a :: rest) = med3 a ((a :: rest).getD ((a :: rest).length / 2) a)
    ((a :: rest).getD ((a :: rest).length - 1) a) from rfl]
  rcases List.mem_cons.mp hm with h | hm'
  · rw [h]
    exact List.mem_cons_self a rest
  rcases List.mem_cons.mp hm' with h | hm''
  · rw [h]
    exact hb
  rcases List.mem_cons.mp hm'' with h | hm3
  · rw [h]
    exact hc
  · cases hm3

/-- `quick_sort(arr)`: length-1-or-less input returned as given;
otherwise three-way partition around the median-of-three pivot
(strictly smaller, equal, strictly greater) and concatenation of the
recursively sorted outer partitions around the equal bucket. -/
def quick_sort : List α → List α
  | [] => []
  | a :: rest =>
    if h : (a :: rest).length ≤ 1 then a :: rest
    else
      quick_sort ((a :: rest).filter fun x => decide (x < quickPivot a (a :: rest))) ++
        ((a :: rest).filter fun x => decide (x = quickPivot a (a :: rest))) ++
        quick_sort ((a :: rest).filter fun x => decide (quickPivot a (a :: rest) < x))
termination_by l => l.length
decreasing_by
  · exact length_filter_lt _ _ _ (quickPivot_mem _ _) (by simp)
  · exact length_filter_lt _ _ _ (quickPivot_mem _ _) (by simp)

/-- The three filters of the partition step give back the whole list,
up to permutation. -/
theorem quick_sort_partition_perm (p : α) (l : List α) :
    List.Perm (l.filter (fun x => decide (x < p)) ++
      l.filter (fun x => decide (x = p)) ++ l.filter (fun x => decide (p < x))) l := by
  have h1 := List.filter_append_perm (fun x => decide (x < p)) l
  have h2 := List.filter_append_perm (fun x => decide (x = p))
    (l.filter (fun x => !decide (x < p)))
  rw [List.filter_filter, List.filter_filter] at h2
  have e1 : ∀ a : α, (decide (a = p) && !decide (a < p)) = decide (a = p) := by
    intro a
    by_cases h : a = p
    · subst h
      simp
    · simp [h]
  have e2 : ∀ a : α, (!decide (a = p) && !decide (a < p)) = decide (p < a) := by
    intro a
    rcases lt_trichotomy a p with h | h | h
    · simp [h, ne_of_lt h, not_lt_of_gt h]
    · subst h
      simp
    · simp [h, (ne_of_gt h : a ≠ p), not_lt_of_gt h, le_of_lt h]
  simp only [e1, e2] at h2
  rw [List.append_assoc]
  exact (List.Perm.append_left (l.filter (fun x => decide (x < p))) h2).trans h1

theorem quick_sort_perm_sorted :
    ∀ l : List α, List.Perm (quick_sort l) l ∧
      List.Pairwise (fun x y : α => x ≤ y) (quick_sort l) := by
  intro l
  induction l using quick_sort.induct with
  | case1 =>
    rw [quick_sort]
    exact ⟨List.Perm.refl [], List.Pairwise.nil⟩
  | case2 a rest h =>
    rw [quick_sort, dif_pos h]
    cases rest with
    | nil => exact ⟨List.Perm.refl [a], by simp⟩
    | cons b t => exact absurd h (by simp)
  | case3 a rest h ihl ihr =>
    obtain ⟨ihlp, ihls⟩ := ihl
    obtain ⟨ihrp, ihrs⟩ := ihr
    rw [quick_sort, dif_neg h]
    constructor
    · refine ((ihlp.append (List.Perm.refl _)).append ihrp).trans ?_
      exact quick_sort_partition_perm (quickPivot a (a :: rest)) (a :: rest)
    · have hmemL : ∀ x ∈ quick_sort ((a :: rest).filter fun x =>
          decide (x < quickPivot a (a :: rest))), x < quickPivot a (a :: rest) := by
        intro x hx
        have := ihlp.mem_iff.mp hx
        exact of_decide_eq_true (List.mem_filter.mp this).2
      have hmemM : ∀ x ∈ (a :: rest).filter (fun x =>
          decide (x = quickPivot a (a :: rest))), x = quickPivot a (a :: rest) := by
        intro x hx
        exact of_decide_eq_true (List.mem_filter.mp hx).2
      have hmemR : ∀ x ∈ quick_sort ((a :: rest).filter fun x =>
          decide (quickPivot a (a :: rest) < x)), quickPivot a (a :: rest) < x := by
        intro x hx
        have := ihrp.mem_iff.mp hx
        exact of_decide_eq_true (List.mem_filter.mp this).2
      refine List.pairwise_append.mpr ⟨?_, ihrs, ?_⟩
      · refine List.pairwise_append.mpr ⟨ihls, ?_, ?_⟩
        · refine List.pairwise_of_forall_mem_list ?_
          intro u hu v hv
          rw [hmemM u hu, hmemM v hv]
        · intro u hu v hv
          exact le_of_lt (lt_of_lt_of_le (hmemL u hu) (le_of_eq (hmemM v hv).symm))
      · intro u hu v hv
        rcases List.mem_append.mp hu with hu' | hu'
        · exact le_of_lt (lt_trans (hmemL u hu') (hmemR v hv))
        · exact le_of_lt (lt_of_le_of_lt (le_of_eq (hmemM u hu')) (hmemR v hv))

end QuickSort

/-! ### Claim theorems for the sorting algorithms -/

theorem pairwise_fst_lt_enumFrom {β : Type} (l : List β) :
    ∀ n : Nat, List.Pairwise (fun p q : Nat × β => p.1 < q.1) (l.enumFrom n) := by
  induction l with
  | nil => intro n; simp
  | cons x l ih =>
    intro n
    rw [List.enumFrom]
    refine List.pairwise_cons.mpr ⟨?_, ih (n + 1)⟩
    intro q hq
    have := (List.mem_enumFrom hq).1
    omega

/-- C7: each of the four sort functions returns a permutation of its
input (same multiset) in non-descending order, for any linearly
ordered element type.  `bubble_sort` and `insertion_sort` compare with
the order's `>`, `merge_sort` with `<=`, matching the operators the
Python code applies to its elements. -/
theorem sort_functions_sorted_perm {α : Type} [LinearOrder α] (l : List α) :
    (List.Perm (bubble_sort (fun x y : α => decide (y < x)) l) l ∧
      List.Sorted (· ≤ ·) (bubble_sort (fun x y : α => decide (y < x)) l)) ∧
    (List.Perm (insertion_sort (fun x y : α => decide (y < x)) l) l ∧
      List.Sorted (· ≤ ·) (insertion_sort (fun x y : α => decide (y < x)) l)) ∧
    (List.Perm (merge_sort (fun x y : α => decide (x ≤ y)) l) l ∧
      List.Sorted (· ≤ ·) (merge_sort (fun x y : α => decide (x ≤ y)) l)) ∧
    (List.Perm (quick_sort l) l ∧ List.Sorted (· ≤ ·) (quick_sort l)) := by
  have Hasym : ∀ x y : α, decide (y < x) = true → decide (x < y) = false := by
    intro x y h
    have := of_decide_eq_true h
    exact decide_eq_false (not_lt_of_gt this)
  have Htrans : ∀ x y z : α, decide (y < x) = false → decide (z < y) = false →
      decide (z < x) = false := by
    intro x y z h1 h2
    have hxy := le_of_not_lt (of_decide_eq_false h1)
    have hyz := le_of_not_lt (of_decide_eq_false h2)
    exact decide_eq_false (not_lt_of_ge (le_trans hxy hyz))
  have Htot : ∀ x y : α, decide (x ≤ y) = false → decide (y ≤ x) = true := by
    intro x y h
    exact decide_eq_true (le_of_lt (lt_of_not_le (of_decide_eq_false h)))
  have Htransle : ∀ x y z : α, decide (x ≤ y) = true → decide (y ≤ z) = true →
      decide (x ≤ z) = true := by
    intro x y z h1 h2
    exact decide_eq_true (le_trans (of_decide_eq_true h1) (of_decide_eq_true h2))
  have himp : ∀ {m : List α},
      List.Pairwise (fun u v : α => decide (v < u) = false) m →
      List.Sorted (· ≤ ·) m :=
    fun h => h.imp (fun hf => le_of_not_lt (of_decide_eq_false hf))
  refine ⟨⟨bubble_sort_perm _ l, himp (bubble_sort_sorted _ Hasym Htrans l)⟩,
    ⟨insertion_sort_perm _ l, himp (insertion_sort_sorted _ Hasym Htrans l)⟩,
    ⟨merge_sort_perm _ l, ?_⟩,
    (quick_sort_perm_sorted l).1, (quick_sort_perm_sorted l).2⟩
  exact (merge_sort_sorted _ Htot Htransle l).imp (fun hf => of_decide_eq_true hf)

/-- C8: `bubble_sort`, `insertion_sort` and `merge_sort` are stable.
Elements are modelled as `(position, key)` pairs compared only by
key, exactly the situation in which Python objects compare equal
without being identical; on the input `ks.enum`, whose positions
increase left to right, each of the three sorts produces a
permutation in which any two pairs with equal keys keep increasing
positions, i.e. their original relative order. -/
theorem sorts_stable {β : Type} [LinearOrder β] (ks : List β) :
    (List.Perm (bubble_sort (fun p q : Nat × β => decide (q.2 < p.2)) ks.enum) ks.enum ∧
      List.Pairwise (fun p q : Nat × β => p.2 = q.2 → p.1 < q.1)
        (bubble_sort (fun p q : Nat × β => decide (q.2 < p.2)) ks.enum)) ∧
    (List.Perm (insertion_sort (fun p q : Nat × β => decide (q.2 < p.2)) ks.enum) ks.enum ∧
      List.Pairwise (fun p q : Nat × β => p.2 = q.2 → p.1 < q.1)
        (insertion_sort (fun p q : Nat × β => decide (q.2 < p.2)) ks.enum)) ∧
    (List.Perm (merge_sort (fun p q : Nat × β => decide (p.2 ≤ q.2)) ks.enum) ks.enum ∧
      List.Pairwise (fun p q : Nat × β => p.2 = q.2 → p.1 < q.1)
        (merge_sort (fun p q : Nat × β => decide (p.2 ≤ q.2)) ks.enum)) := by
  have hS0 : List.Pairwise (fun p q : Nat × β => p.2 = q.2 → p.1 < q.1) ks.enum := by
    refine List.Pairwise.imp ?_ (pairwise_fst_lt_enumFrom ks 0)
    intro p q h _
    exact h
  have Hswap : ∀ u v : Nat × β, decide (v.2 < u.2) = true →
      (v.2 = u.2 → v.1 < u.1) := by
    intro u v huv heq
    have h := of_decide_eq_true huv
    rw [heq] at h
    exact absurd h (lt_irrefl u.2)
  have Hasym : ∀ u v : Nat × β, decide (v.2 < u.2) = true →
      decide (u.2 < v.2) = false := by
    intro u v h
    exact decide_eq_false (not_lt_of_gt (of_decide_eq_true h))
  have Htrans : ∀ u v w : Nat × β, decide (v.2 < u.2) = false →
      decide (w.2 < v.2) = false → decide (w.2 < u.2) = false := by
    intro u v w h1 h2
    have huv := le_of_not_lt (of_decide_eq_false h1)
    have hvw := le_of_not_lt (of_decide_eq_false h2)
    exact decide_eq_false (not_lt_of_ge (le_trans huv hvw))
  have Hprop : ∀ x z z' : Nat × β, decide (x.2 < z.2) = true →
      decide (z'.2 < z.2) = false → (x.2 = z'.2 → x.1 < z'.1) := by
    intro x z z' h1 h2 heq
    have h1' := of_decide_eq_true h1
    rw [heq] at h1'
    exact absurd h1' (of_decide_eq_false h2)
  have Hba : ∀ a b : Nat × β, decide (a.2 ≤ b.2) = false → (b.2 = a.2 → b.1 < a.1) := by
    intro a b h heq
    have h' := lt_of_not_le (of_decide_eq_false h)
    rw [heq] at h'
    exact absurd h' (lt_irrefl a.2)
  have Hbx : ∀ a b x : Nat × β, decide (a.2 ≤ b.2) = false →
      decide (a.2 ≤ x.2) = true → (b.2 = x.2 → b.1 < x.1) := by
    intro a b x h1 h2 heq
    have h1' := lt_of_not_le (of_decide_eq_false h1)
    have h2' := of_decide_eq_true h2
    rw [heq] at h1'
    exact absurd (lt_of_lt_of_le h1' h2') (lt_irrefl x.2)
  have Htot : ∀ u v : Nat × β, decide (u.2 ≤ v.2) = false →
      decide (v.2 ≤ u.2) = true := by
    intro u v h
    exact decide_eq_true (le_of_lt (lt_of_not_le (of_decide_eq_false h)))
  have Htransle : ∀ u v w : Nat × β, decide (u.2 ≤ v.2) = true →
      decide (v.2 ≤ w.2) = true → decide (u.2 ≤ w.2) = true := by
    intro u v w h1 h2
    exact decide_eq_true (le_trans (of_decide_eq_true h1) (of_decide_eq_true h2))
  exact ⟨⟨bubble_sort_perm _ ks.enum, bubble_sort_stable _ _ Hswap ks.enum hS0⟩,
    ⟨insertion_sort_perm _ ks.enum,
      insertion_sort_stable _ _ Hasym Htrans Hswap Hprop ks.enum hS0⟩,
    ⟨merge_sort_perm _ ks.enum,
      merge_sort_stable _ _ Htot Htransle Hba Hbx ks.enum hS0⟩⟩

/-- C10: for any input handled by the recursive case of `quick_sort`
(length at least 2), the median-of-three pivot is an element of the
list, the equal partition is therefore non-empty, and both recursive
calls receive strictly shorter lists — which is exactly why
`quick_sort` terminates on every finite input (Lean accepts the
definition with this very measure). -/
theorem quick_sort_median_pivot_partition {α : Type} [LinearOrder α]
    (a : α) (rest : List α) (h : ¬ (a :: rest).length ≤ 1) :
    quickPivot a (a :: rest) ∈ a :: rest ∧
    (a :: rest).filter (fun x => decide (x = quickPivot a (a :: rest))) ≠ [] ∧
    ((a :: rest).filter (fun x => decide (x < quickPivot a (a :: rest)))).length <
      (a :: rest).length ∧
    ((a :: rest).filter (fun x => decide (quickPivot a (a :: rest) < x))).length <
      (a :: rest).length := by
  refine ⟨quickPivot_mem a rest, ?_, ?_, ?_⟩
  · refine List.ne_nil_of_mem (List.mem_filter.mpr ⟨quickPivot_mem a rest, by simp⟩)
  · exact length_filter_lt _ _ _ (quickPivot_mem a rest) (by simp)
  · exact length_filter_lt _ _ _ (quickPivot_mem a rest) (by simp)

/-- Witness for C10 on the list `[3, 1, 2]` of integers. -/
theorem quick_sort_median_pivot_partition_witness :
    quickPivot (3 : Int) (3 :: [1, 2]) ∈ (3 :: [1, 2] : List Int) ∧
    ((3 : Int) :: [1, 2]).filter (fun x => decide (x = quickPivot (3 : Int) (3 :: [1, 2]))) ≠ [] ∧
    (((3 : Int) :: [1, 2]).filter
      (fun x => decide (x < quickPivot (3 : Int) (3 :: [1, 2])))).length <
      ((3 : Int) :: [1, 2]).length ∧
    (((3 : Int) :: [1, 2]).filter
      (fun x => decide (quickPivot (3 : Int) (3 :: [1, 2]) < x))).length <
      ((3 : Int) :: [1, 2]).length :=
  quick_sort_median_pivot_partition 3 [1, 2] (by decide)

end DSA
